import Mathlib

/-!
# Skycoin transactions: verification and fee ordering

A shallow embedding of `src/coin/transactions.go`, and of `AddEntry` and `GetEntry` of
`src/wallet/simple.go`.

* Byte strings (`[]byte`, `cipher.SHA256 = [32]byte`, `cipher.Sig = [65]byte`) are lists of
  natural numbers; nothing below depends on their length.
* `uint64` values are natural numbers, reduced modulo `2 ^ 64` where the source can overflow.
* The hash functions, the signature primitives and the binary encoder live in the packages
  `cipher` and `encoder`; they are collected in the structure `Env` and every operation that
  calls them takes an `Env`.
* A Go `error` is `Option GoError`, `none` being `nil`.  A run-time panic (index out of range,
  integer division by zero) is the `none` of an `Option` result.
-/

namespace Skycoin

/-! ## Data model -/

/-- Go `cipher.SHA256`, a `[32]byte`, kept as its bytes. -/
abbrev SHA256 := List Nat

/-- Go `cipher.Sig`, a `[65]byte`, kept as its bytes. -/
abbrev Sig := List Nat

/-- Go `cipher.SecKey`, kept as its bytes. -/
abbrev SecKey := List Nat

/-- Modelled from the spec: `cipher.Address`, whose declaration is not among the sources;
an address is kept as its bytes. -/
abbrev Address := List Nat

/-- Go `math.MaxUint16`, that is `1<<16 - 1`. -/
def MaxUint16 : Nat := 65535

/-- Go `TransactionOutput`. -/
structure TransactionOutput where
  Address : Address
  Coins : Nat
  Hours : Nat
deriving DecidableEq, Repr, Inhabited

/-- Go `TransactionHeader`. -/
structure TransactionHeader where
  Hash : SHA256
  Sigs : List Sig
deriving DecidableEq, Repr, Inhabited

/-- Go `Transaction`. -/
structure Transaction where
  Head : TransactionHeader
  In : List SHA256
  Out : List TransactionOutput
deriving DecidableEq, Repr, Inhabited

/-- Go `Transactions`, a slice of transactions. -/
abbrev Transactions := List Transaction

/-- Modelled from the spec: `UxBody`, declared in a file of package `coin` that is not among
the sources; the four fields are the ones `Verify` assigns. -/
structure UxBody where
  SrcTransaction : SHA256
  Address : Address
  Coins : Nat
  Hours : Nat
deriving DecidableEq, Repr, Inhabited

/-- A Go `error` value: one made by `errors.New` inside `transactions.go`, or one handed back
by package `cipher`.  Two values of different origin are never the same error. -/
inductive GoError where
  | errorsNew (msg : String)
  | cipher (msg : String)
deriving DecidableEq, Repr, Inhabited

/-- The functions of packages `encoder` and `cipher`, and `UxBody.Hash`, that
`transactions.go` calls. -/
structure Env where
  /-- Go `encoder.Serialize(self.In)` -/
  SerializeIn : List SHA256 → List Nat
  /-- Go `encoder.Serialize(self.Out)` -/
  SerializeOut : List TransactionOutput → List Nat
  /-- Go `encoder.Serialize(*self)` for a whole transaction -/
  SerializeTxn : Transaction → List Nat
  /-- Go `cipher.SumSHA256` -/
  SumSHA256 : List Nat → SHA256
  /-- Go `cipher.SumDoubleSHA256` -/
  SumDoubleSHA256 : List Nat → SHA256
  /-- Go `cipher.VerifySignedHash(sig, hash)`: `none` is `nil`, `some msg` an error of `cipher` -/
  VerifySignedHash : Sig → SHA256 → Option String
  /-- Go `cipher.SignHash(hash, key)` -/
  SignHash : SHA256 → SecKey → Sig
  /-- Go `UxBody.Hash` -/
  UxBodyHash : UxBody → SHA256

/-! ## Go maps -/

/-- Go `m[k] = v` on a map kept as a list of bindings with pairwise different keys: an existing
binding of `k` is overwritten, otherwise a binding is added. -/
def mapAssign {κ ν : Type} [DecidableEq κ] (m : List (κ × ν)) (k : κ) (v : ν) : List (κ × ν) :=
  if m.any (fun p => decide (p.1 = k)) then
    m.map (fun p => if p.1 = k then (k, v) else p)
  else
    m ++ [(k, v)]

/-! ## Hashing -/

/-- Go `Transaction.hashInner`: hashes only the inputs and outputs. -/
def Transaction.hashInner (env : Env) (self : Transaction) : SHA256 :=
  let b1 := env.SerializeIn self.In
  let b2 := env.SerializeOut self.Out
  let b3 := b1 ++ b2
  env.SumSHA256 b3

/-- Go `Transaction.Serialize`. -/
def Transaction.Serialize (env : Env) (self : Transaction) : List Nat :=
  env.SerializeTxn self

/-- Go `Transaction.Hash`: hashes the whole transaction, header included. -/
def Transaction.Hash (env : Env) (self : Transaction) : SHA256 :=
  let b := self.Serialize env
  env.SumDoubleSHA256 b

/-- Go `Transaction.Size`. -/
def Transaction.Size (env : Env) (self : Transaction) : Nat :=
  (self.Serialize env).length

/-- Go `Transaction.SizeHash`. -/
def Transaction.SizeHash (env : Env) (self : Transaction) : Nat × SHA256 :=
  let b := self.Serialize env
  (b.length, env.SumDoubleSHA256 b)

/-! ## Verify -/

/-- The map `uxOuts` of `Verify` after its loop `uxOuts[self.In[i]] = byte(1)`. -/
def Transaction.uxOuts (self : Transaction) : List (SHA256 × Nat) :=
  self.In.foldl (fun m h => mapAssign m h 1) []

/-- The map `outputs` of `Verify` after its loop `outputs[uxb.Hash()] = byte(1)`, where `uxb`
carries `SrcTransaction: self.Hash()` and the fields of the output at hand. -/
def Transaction.outputs (env : Env) (self : Transaction) : List (SHA256 × Nat) :=
  let src := self.Hash env
  self.Out.foldl
    (fun m txo =>
      mapAssign m
        (env.UxBodyHash
          { SrcTransaction := src, Address := txo.Address, Coins := txo.Coins, Hours := txo.Hours })
        1)
    []

/-- The loop `for _, sig := range self.Head.Sigs` of `Verify`: the first error of
`cipher.VerifySignedHash`, if any. -/
def verifySigs (env : Env) (hash : SHA256) : List Sig → Option GoError
  | [] => none
  | sig :: rest =>
    match env.VerifySignedHash sig hash with
    | some err => some (GoError.cipher err)
    | none => verifySigs env hash rest

/-- The loop `for _, txo := range self.Out` of `Verify`. -/
def verifyCoins : List TransactionOutput → Option GoError
  | [] => none
  | txo :: rest =>
    if txo.Coins = 0 then
      some (GoError.errorsNew "Zero coin output")
    else if txo.Coins % 1000000 ≠ 0 then
      some (GoError.errorsNew "Transaction outputs must be multiple of 1e6 base units")
    else verifyCoins rest

/-- Go `Transaction.Verify`. -/
def Transaction.Verify (env : Env) (self : Transaction) : Option GoError :=
  let h := self.hashInner env
  if h ≠ self.Head.Hash then
    some (GoError.errorsNew "Invalid header hash")
  else if self.In.length = 0 then
    some (GoError.errorsNew "No inputs")
  else if self.Out.length = 0 then
    some (GoError.errorsNew "No outputs")
  else if self.Head.Sigs.length ≠ self.In.length then
    some (GoError.errorsNew "Invalid number of signatures")
  else if self.Head.Sigs.length ≥ MaxUint16 then
    some (GoError.errorsNew "Too many signatures and inputs")
  else if self.uxOuts.length ≠ self.In.length then
    some (GoError.errorsNew "Duplicate spend")
  else if (self.outputs env).length ≠ self.Out.length then
    some (GoError.errorsNew "Duplicate output in transaction")
  else
    match verifySigs env self.Head.Hash self.Head.Sigs with
    | some err => some err
    | none => verifyCoins self.Out

/-! ## A small environment for concrete runs -/

/-- An environment for concrete runs: the encoders concatenate, the hashes keep the byte sum,
a signature is valid exactly when it is the hash followed by one more byte. -/
def demoEnv : Env where
  SerializeIn := fun ins => ins.length :: ins.flatten
  SerializeOut := fun outs =>
    outs.length :: (outs.map (fun o => o.Address ++ [o.Coins, o.Hours])).flatten
  SerializeTxn := fun t =>
    t.Head.Hash ++ (t.Head.Sigs.length :: t.Head.Sigs.flatten) ++ (t.In.length :: t.In.flatten)
      ++ (t.Out.length :: (t.Out.map (fun o => o.Address ++ [o.Coins, o.Hours])).flatten)
  SumSHA256 := fun b => [b.sum % 256]
  SumDoubleSHA256 := fun b => [(b.sum + b.length) % 256]
  VerifySignedHash := fun sig hash =>
    if sig.take hash.length = hash ∧ sig.length = hash.length + 1 then none
    else some "Invalid sig"
  SignHash := fun hash key => hash ++ [key.sum % 256]
  UxBodyHash := fun b => [(b.SrcTransaction.sum + b.Address.sum + b.Coins + b.Hours) % 256]

/-- A well-formed transaction under `demoEnv`: one input, one output of 2,000,000. -/
def demoTxn : Transaction :=
  { Head := { Hash := [150], Sigs := [[150, 7]] }
    In := [[1, 2, 3]]
    Out := [{ Address := [9], Coins := 2000000, Hours := 5 }] }

/-- Go `Transaction.UpdateHeader`: saves the inner hash to the header. -/
def Transaction.UpdateHeader (env : Env) (self : Transaction) : Transaction :=
  { self with Head := { self.Head with Hash := self.hashInner env } }

/-- A transaction spending the same input twice, with two invalid signatures. -/
def dupInTxn : Transaction :=
  Transaction.UpdateHeader demoEnv
    { Head := { Hash := [], Sigs := [[0], [0]] }
      In := [[1, 2, 3], [1, 2, 3]]
      Out := [{ Address := [9], Coins := 2000000, Hours := 5 }] }

/-- A transaction with the same output twice, with an invalid signature. -/
def dupOutTxn : Transaction :=
  Transaction.UpdateHeader demoEnv
    { Head := { Hash := [], Sigs := [[0]] }
      In := [[1, 2, 3]]
      Out := [{ Address := [9], Coins := 2000000, Hours := 5 },
              { Address := [9], Coins := 2000000, Hours := 5 }] }

/-- An environment whose hashes are constant, for transactions too long to hash by hand. -/
def constEnv : Env where
  SerializeIn := fun _ => []
  SerializeOut := fun _ => []
  SerializeTxn := fun _ => [0]
  SumSHA256 := fun _ => List.replicate 32 0
  SumDoubleSHA256 := fun _ => List.replicate 32 0
  VerifySignedHash := fun _ _ => none
  SignHash := fun _ _ => List.replicate 65 0
  UxBodyHash := fun b => b.Address ++ [b.Coins, b.Hours]

/-- A transaction with 65,535 different inputs and as many signatures. -/
def maxSigsTxn : Transaction :=
  { Head := { Hash := List.replicate 32 0, Sigs := List.replicate 65535 (List.replicate 65 0) }
    In := (List.range 65535).map (fun i => [i / 256, i % 256])
    Out := [{ Address := [9], Coins := 2000000, Hours := 5 }] }


/-! ## Verify: the checks as the specification words them -/

/-- The output identity hashes of a transaction: `UxBody.Hash` of each output together with the
identity hash of the transaction as source. -/
def Transaction.outputIdentityHashes (env : Env) (t : Transaction) : List SHA256 :=
  t.Out.map (fun o =>
    env.UxBodyHash
      { SrcTransaction := t.Hash env, Address := o.Address, Coins := o.Coins, Hours := o.Hours })

/-- The checks 1 to 4 and 6 to 9 of the specification, in its order; each is `some err` when
it fails, `err` being the error it reports. -/
def Transaction.checks (env : Env) (t : Transaction) : List (Option GoError) :=
  [ if t.hashInner env ≠ t.Head.Hash then some (GoError.errorsNew "Invalid header hash")
    else none,
    if t.In = [] then some (GoError.errorsNew "No inputs") else none,
    if t.Out = [] then some (GoError.errorsNew "No outputs") else none,
    if t.Head.Sigs.length ≠ t.In.length then
      some (GoError.errorsNew "Invalid number of signatures")
    else none,
    if ¬ t.In.Nodup then some (GoError.errorsNew "Duplicate spend") else none,
    if ¬ (t.outputIdentityHashes env).Nodup then
      some (GoError.errorsNew "Duplicate output in transaction")
    else none,
    ((t.Head.Sigs.filterMap (fun sig => env.VerifySignedHash sig t.Head.Hash)).head?).map
      GoError.cipher,
    (t.Out.find? (fun o => decide (o.Coins = 0 ∨ o.Coins % 1000000 ≠ 0))).map (fun o =>
      if o.Coins = 0 then GoError.errorsNew "Zero coin output"
      else GoError.errorsNew "Transaction outputs must be multiple of 1e6 base units") ]

/-- The error of the first failing check of a list of checks, `none` when none fails. -/
def firstFailing : List (Option GoError) → Option GoError
  | [] => none
  | some err :: _ => some err
  | none :: rest => firstFailing rest


/-! ## Sorting by fee density -/

/-- Go `FeeCalculator`: the fee of a transaction, or an error if it cannot be calculated. -/
abbrev FeeCalculator := Transaction → Except GoError Nat

/-- Go `SortableTransactions`: three slices meant to be read side by side. -/
structure SortableTransactions where
  Txns : Transactions
  Fees : List Nat
  Hashes : List SHA256
deriving DecidableEq, Repr, Inhabited

/-- Go `bytes.Compare`: `-1`, `0` or `1` as `a` is lexicographically less than, equal to or
greater than `b`. -/
def bytesCompare : List Nat → List Nat → Int
  | [], [] => 0
  | [], _ :: _ => -1
  | _ :: _, [] => 1
  | a :: as, b :: bs => if a < b then -1 else if b < a then 1 else bytesCompare as bs

/-- Go `s[i], s[j] = s[j], s[i]` on one slice; `none` is the index-out-of-range panic. -/
def swapAt {α : Type} (s : List α) (i j : Nat) : Option (List α) :=
  match s[i]?, s[j]? with
  | some a, some b => some ((s.set i b).set j a)
  | _, _ => none

/-- Go `SortableTransactions.Len`. -/
def SortableTransactions.Len (self : SortableTransactions) : Nat :=
  self.Txns.length

/-- Go `SortableTransactions.Less`: fees descending, hash ascending if the fees are equal;
`none` is the index-out-of-range panic. -/
def SortableTransactions.Less (self : SortableTransactions) (i j : Nat) : Option Bool :=
  match self.Fees[i]?, self.Fees[j]? with
  | some fi, some fj =>
    if fi = fj then
      match self.Hashes[i]?, self.Hashes[j]? with
      | some hi, some hj => some (decide (bytesCompare hi hj < 0))
      | _, _ => none
    else
      some (decide (fi > fj))
  | _, _ => none

/-- Go `SortableTransactions.Swap`; `none` is the index-out-of-range panic. -/
def SortableTransactions.Swap (self : SortableTransactions) (i j : Nat) :
    Option SortableTransactions :=
  match swapAt self.Txns i j with
  | none => none
  | some txns =>
    match swapAt self.Fees i j with
    | none => none
    | some fees =>
      match swapAt self.Hashes i j with
      | none => none
      | some hashes => some { Txns := txns, Fees := fees, Hashes := hashes }

/-- The loop of `newSortableTransactions` over the transactions still to visit; the state is
`newTxns`, `fees`, `hashes` and `j`.  `none` is the panic of the integer division by a size
of zero. -/
def newSortableLoop (env : Env) (feeCalc : FeeCalculator) :
    List Transaction → Transactions × List Nat × List SHA256 × Nat →
      Option (Transactions × List Nat × List SHA256 × Nat)
  | [], st => some st
  | txn :: rest, (newTxns, fees, hashes, j) =>
    match feeCalc txn with
    | Except.ok fee =>
      let newTxns := newTxns.set j txn
      let (size, hash) := txn.SizeHash env
      let hashes := hashes.set j hash
      if size = 0 then none
      else
        let fees := fees.set j ((fee * 1024) % 2 ^ 64 / size)
        newSortableLoop env feeCalc rest (newTxns, fees, hashes, j + 1)
    | Except.error _ => newSortableLoop env feeCalc rest (newTxns, fees, hashes, j)

/-- Go `newSortableTransactions`: the three slices are made with `len(txns)` zero values,
filled from position `0` on with the transactions whose fee is calculated, and cut at `j`. -/
def newSortableTransactions (env : Env) (txns : Transactions) (feeCalc : FeeCalculator) :
    Option SortableTransactions :=
  let newTxns : Transactions := List.replicate txns.length default
  let fees : List Nat := List.replicate txns.length 0
  let hashes : List SHA256 := List.replicate txns.length []
  match newSortableLoop env feeCalc txns (newTxns, fees, hashes, 0) with
  | none => none
  | some (newTxns, fees, hashes, j) =>
    some { Txns := newTxns.take j, Fees := fees.take j, Hashes := hashes.take j }

/-- The inner loop of the insertion sort of Go's package `sort`, from position `j` down:
`for j := i; j > 0 && data.Less(j, j-1); j-- { data.Swap(j, j-1) }`. -/
def insertionSortInner (data : SortableTransactions) : Nat → Option SortableTransactions
  | 0 => some data
  | j + 1 =>
    match data.Less (j + 1) j with
    | none => none
    | some false => some data
    | some true =>
      match data.Swap (j + 1) j with
      | none => none
      | some swapped => insertionSortInner swapped j

/-- The outer loop of the insertion sort of Go's package `sort`, `for i := a + 1; i < b; i++`,
with `k = b - i` rounds to go. -/
def insertionSortOuter (data : SortableTransactions) (i : Nat) :
    Nat → Option SortableTransactions
  | 0 => some data
  | k + 1 =>
    match insertionSortInner data i with
    | none => none
    | some inserted => insertionSortOuter inserted (i + 1) k

/-- Go `sort.Sort(data)`, a function of the standard library that reaches the data only
through `Len`, `Less` and `Swap`; it is run here as the library's insertion sort
`insertionSort(data, 0, data.Len())`, the routine the library uses on short slices.  The
library does not fix the order of positions that compare equal, and on long slices it runs
other routines, so this run stands for the library only up to the order of such positions. -/
def sortSort (data : SortableTransactions) : Option SortableTransactions :=
  insertionSortOuter data 1 (data.Len - 1)

/-- The loop of Go `sort.IsSorted`: `for i := n - 1; i > 0; i-- { if data.Less(i, i-1) {
return false } }`. -/
def isSortedLoop (data : SortableTransactions) : Nat → Option Bool
  | 0 => some true
  | i + 1 =>
    match data.Less (i + 1) i with
    | none => none
    | some true => some false
    | some false => isSortedLoop data i

/-- Go `SortableTransactions.Sort`. -/
def SortableTransactions.Sort (self : SortableTransactions) : Option SortableTransactions :=
  sortSort self

/-- Go `SortableTransactions.IsSorted`. -/
def SortableTransactions.IsSorted (self : SortableTransactions) : Option Bool :=
  isSortedLoop self (self.Len - 1)

/-- The value `sorted` of `SortTransactions` after `sorted.Sort()`. -/
def sortedTransactions (env : Env) (txns : Transactions) (feeCalc : FeeCalculator) :
    Option SortableTransactions :=
  match newSortableTransactions env txns feeCalc with
  | none => none
  | some sorted => sorted.Sort

/-- Go `SortTransactions`; `none` is a panic. -/
def SortTransactions (env : Env) (txns : Transactions) (feeCalc : FeeCalculator) :
    Option Transactions :=
  match sortedTransactions env txns feeCalc with
  | none => none
  | some sorted => some sorted.Txns

/-- The fee density by which `newSortableTransactions` ranks a transaction:
`(fee * 1024) / uint64(size)` in 64-bit unsigned arithmetic; `0` stands for a transaction
without a fee. -/
def feeDensity (env : Env) (feeCalc : FeeCalculator) (t : Transaction) : Nat :=
  match feeCalc t with
  | Except.ok fee => (fee * 1024) % 2 ^ 64 / t.Size env
  | Except.error _ => 0

/-- The order of the specification on transactions: `a` may stand before `b` when its fee
density is strictly greater, or the densities are equal and the identity hash of `a` is
lexicographically less than or equal to that of `b`. -/
def mayPrecede (env : Env) (feeCalc : FeeCalculator) (a b : Transaction) : Prop :=
  feeDensity env feeCalc a > feeDensity env feeCalc b ∨
    (feeDensity env feeCalc a = feeDensity env feeCalc b ∧
      (a.Hash env = b.Hash env ∨ List.Lex (fun x y : Nat => x < y) (a.Hash env) (b.Hash env)))

/-- A fee calculator for concrete runs: the fee is the hours of the first output, and there
is no fee for a transaction without outputs. -/
def demoFee : FeeCalculator := fun t =>
  match t.Out with
  | [] => Except.error (GoError.errorsNew "no fee")
  | o :: _ => Except.ok o.Hours

/-- Transactions for concrete runs, by number of hours; `0` gives one without outputs. -/
def demoPay (hours : Nat) (tag : Nat) : Transaction :=
  { Head := { Hash := [tag], Sigs := [] }
    In := [[tag]]
    Out := if hours = 0 then [] else [{ Address := [tag], Coins := 1000000, Hours := hours }] }

/-- A list of four transactions, the third without a fee. -/
def demoTxns : Transactions :=
  [demoPay 10 1, demoPay 30 2, demoPay 0 3, demoPay 30 4]

/-! ## Entries: the three slices of a `SortableTransactions` read side by side -/

/-- One position of a `SortableTransactions`: transaction, fee density and hash. -/
abbrev Entry := Transaction × Nat × SHA256

/-- The `SortableTransactions` whose positions are the given entries. -/
def ofEntries (es : List Entry) : SortableTransactions :=
  { Txns := es.map (fun e => e.1), Fees := es.map (fun e => e.2.1),
    Hashes := es.map (fun e => e.2.2) }

/-- The comparison of `Less` on two entries. -/
def entryLess (x y : Entry) : Bool :=
  if x.2.1 = y.2.1 then decide (bytesCompare x.2.2 y.2.2 < 0) else decide (x.2.1 > y.2.1)

/-- Entry `a` is not after entry `b`: `Less` does not put `b` before `a`. -/
def notAfter (a b : Entry) : Prop := entryLess b a = false

/-- The list left by the inner loop of the insertion sort: `x` travels down the sorted part,
given from its last position to its first, as long as it is less than its neighbour. -/
def insertBack (x : Entry) : List Entry → List Entry
  | [] => [x]
  | y :: before =>
    if entryLess x y then insertBack x before ++ [y] else (y :: before).reverse ++ [x]

/-- Whether the fee calculator returns a fee for the transaction. -/
def feeOk (feeCalc : FeeCalculator) (t : Transaction) : Bool :=
  match feeCalc t with
  | Except.ok _ => true
  | Except.error _ => false

/-- The entry `newSortableTransactions` writes for a transaction, if it writes one. -/
def entryOf (env : Env) (feeCalc : FeeCalculator) (t : Transaction) : Option Entry :=
  match feeCalc t with
  | Except.ok fee => some (t, (fee * 1024) % 2 ^ 64 / t.Size env, t.Hash env)
  | Except.error _ => none

/-- The entries `newSortableTransactions` writes for a list of transactions. -/
def entriesOf (env : Env) (feeCalc : FeeCalculator) (txns : Transactions) : List Entry :=
  txns.filterMap (entryOf env feeCalc)

/-- An entry carries the fee density and the identity hash of its own transaction. -/
def Aligned (env : Env) (feeCalc : FeeCalculator) (e : Entry) : Prop :=
  e.2.1 = feeDensity env feeCalc e.1 ∧ e.2.2 = e.1.Hash env

/-! ## Building and signing a transaction -/

/-- Go `Transaction.PushInput`: the transaction with the input appended and the index
`uint16(len(self.In) - 1)` of the new input; `none` is the panic "Max transaction inputs
reached". -/
def Transaction.PushInput (self : Transaction) (uxOut : SHA256) : Option (Transaction × Nat) :=
  if self.In.length ≥ MaxUint16 then none
  else
    let pushed : Transaction := { self with In := self.In ++ [uxOut] }
    some (pushed, (pushed.In.length - 1) % 2 ^ 16)

/-- Go `Transaction.PushOutput`. -/
def Transaction.PushOutput (self : Transaction) (dst : Address) (coins hours : Nat) :
    Transaction :=
  let txo : TransactionOutput := { Address := dst, Coins := coins, Hours := hours }
  { self with Out := self.Out ++ [txo] }

/-- The loop `for i, k := range keys { sigs[i] = cipher.SignHash(h, k) }` of `SignInputs`
over the keys still to visit, `i` being the position of the first of them; `none` is the
index-out-of-range panic. -/
def signLoop (env : Env) (h : SHA256) : List SecKey → Nat → List Sig → Option (List Sig)
  | [], _, sigs => some sigs
  | k :: rest, i, sigs =>
    if i < sigs.length then signLoop env h rest (i + 1) (sigs.set i (env.SignHash h k))
    else none

/-- Go `Transaction.SignInputs`; `none` is one of its panics. -/
def Transaction.SignInputs (env : Env) (self : Transaction) (keys : List SecKey) :
    Option Transaction :=
  if self.Head.Sigs.length ≠ 0 then none
  else if keys.length ≠ self.In.length then none
  else if keys.length > MaxUint16 then none
  else if keys.length = 0 then none
  else
    let sigs : List Sig := List.replicate self.In.length []
    let h := self.hashInner env
    match signLoop env h keys 0 sigs with
    | none => none
    | some sigs => some { self with Head := { self.Head with Sigs := sigs } }

/-- Go `Transaction.OutputHours`: `hours += self.Out[i].Hours` in 64-bit unsigned
arithmetic. -/
def Transaction.OutputHours (self : Transaction) : Nat :=
  self.Out.foldl (fun hours txo => (hours + txo.Hours) % 2 ^ 64) 0

/-! ## Operations on lists of transactions -/

/-- The loop of `Transactions.Fees` over the transactions still to visit. -/
def feesLoop (feeCalc : FeeCalculator) : List Transaction → Nat → Nat × Option GoError
  | [], total => (total, none)
  | txn :: rest, total =>
    match feeCalc txn with
    | Except.error err => (0, some err)
    | Except.ok fee => feesLoop feeCalc rest ((total + fee) % 2 ^ 64)

/-- Go `Transactions.Fees`: the total and the error, `total += fee` being 64-bit unsigned
arithmetic. -/
def Transactions.Fees (self : Transactions) (feeCalc : FeeCalculator) :
    Nat × Option GoError :=
  feesLoop feeCalc self 0

/-- Go `Transactions.Hashes`. -/
def Transactions.Hashes (env : Env) (self : Transactions) : List SHA256 :=
  self.map (fun txn => txn.Hash env)

/-- Go `Transactions.Size`: the sum of the sizes of the transactions. -/
def Transactions.Size (env : Env) (self : Transactions) : Int :=
  self.foldl (fun size txn => size + (txn.Size env : Int)) 0

/-- The loop of `Transactions.TruncateBytesTo` over the transactions still to visit, `i`
being the position of the first of them: `some i` when the loop returns `self[:i]`, `none`
when it runs to its end. -/
def truncateLoop (env : Env) (size : Int) : List Transaction → Int → Nat → Option Nat
  | [], _, _ => none
  | txn :: rest, total, i =>
    let pending : Int := (txn.Size env : Int)
    if total + pending > size then some i
    else truncateLoop env size rest (total + pending) (i + 1)

/-- Go `Transactions.TruncateBytesTo`. -/
def Transactions.TruncateBytesTo (env : Env) (self : Transactions) (size : Int) :
    Transactions :=
  match truncateLoop env size self 0 0 with
  | some i => self.take i
  | none => self

/-- The fee the calculator returns for a transaction, `0` standing for no fee. -/
def feeOf (feeCalc : FeeCalculator) (t : Transaction) : Nat :=
  match feeCalc t with
  | Except.ok fee => fee
  | Except.error _ => 0

/-- The greedy prefix cut of the specification: a transaction is taken while the running
total with its size stays within the budget. -/
def prefixWithin (env : Env) (budget : Int) : Int → List Transaction → List Transaction
  | _, [] => []
  | total, txn :: rest =>
    if total + (txn.Size env : Int) > budget then []
    else txn :: prefixWithin env budget (total + (txn.Size env : Int)) rest

/-- A fee calculator returning the same fee for every transaction. -/
def constFee (fee : Nat) : FeeCalculator := fun _ => Except.ok fee

/-- A transaction whose two outputs carry 2^63 hours each. -/
def bigHoursTxn : Transaction :=
  { Head := { Hash := [], Sigs := [] }
    In := [[1]]
    Out := [{ Address := [9], Coins := 1000000, Hours := 2 ^ 63 },
            { Address := [8], Coins := 1000000, Hours := 2 ^ 63 }] }

/-- An unsigned transaction whose header hash was never updated. -/
def staleTxn : Transaction :=
  { Head := { Hash := [], Sigs := [] }
    In := [[1, 2, 3]]
    Out := [{ Address := [9], Coins := 2000000, Hours := 5 }] }

/-- An environment in which the encoded size of a transaction is the number of hours of its
outputs. -/
def padEnv : Env :=
  { demoEnv with SerializeTxn := fun t => List.replicate t.OutputHours 0 }

/-! ## The alignment of the three slices -/

/-- The three slices of a `SortableTransactions` are aligned: at every position the fee is
the fee density of the transaction at that position and the hash is its identity hash. -/
def AlignedSlices (env : Env) (feeCalc : FeeCalculator) (s : SortableTransactions) : Prop :=
  s.Fees = s.Txns.map (feeDensity env feeCalc) ∧ s.Hashes = s.Txns.map (fun t => t.Hash env)

/-- A sequence of calls of `Swap`, each on the value left by the one before; `none` when one
of them panics. -/
def applySwaps : SortableTransactions → List (Nat × Nat) → Option SortableTransactions
  | s, [] => some s
  | s, (i, j) :: rest =>
    match s.Swap i j with
    | none => none
    | some swapped => applySwaps swapped rest

/-! ## Any implementation of sort.Sort -/

/-- Go `WalletEntry`, whose declaration is not among the sources: `AddEntry` reads its
field `Address`; the keys are kept as bytes. -/
structure WalletEntry where
  Address : Address
  Public : List Nat
  Secret : List Nat
deriving DecidableEq, Repr, Inhabited

/-- Go `WalletEntries`, a map from addresses to entries: `none` is the nil map, `some m` an
allocated map kept as its list of bindings. -/
abbrev WalletEntries := Option (List (Address × WalletEntry))

/-- Go `SimpleWallet`. -/
structure SimpleWallet where
  ID : String
  Name : String
  Filename : String
  Entries : WalletEntries
deriving DecidableEq, Repr, Inhabited

/-- Go `v, exists := m[k]` on a map kept as a list of bindings: the value bound to `k`, if
any. -/
def mapLookup {κ ν : Type} [DecidableEq κ] (m : List (κ × ν)) (k : κ) : Option ν :=
  match m.find? (fun p => decide (p.1 = k)) with
  | some p => some p.2
  | none => none

/-- Go `SimpleWallet.NumEntries`: `len` of the map, `0` for the nil map. -/
def SimpleWallet.NumEntries (self : SimpleWallet) : Nat :=
  match self.Entries with
  | none => 0
  | some m => m.length

/-- Go `SimpleWallet.GetEntry`: the entry and whether it exists, the entry being the zero
value when it does not; reading the nil map finds nothing. -/
def SimpleWallet.GetEntry (self : SimpleWallet) (a : Address) : WalletEntry × Bool :=
  match self.Entries with
  | none => (default, false)
  | some m =>
    match mapLookup m a with
    | some we => (we, true)
    | none => (default, false)

/-- Go `SimpleWallet.AddEntry`: the wallet after the call and the error returned; `none` is
the panic of the assignment `self.Entries[e.Address] = e` to the nil map.  `entryVerify` is
`WalletEntry.Verify` and `addressString` is `cipher.Address.String`, both declared outside
the sources; the error of `fmt.Errorf` is a new error value. -/
def SimpleWallet.AddEntry (entryVerify : WalletEntry → Option GoError)
    (addressString : Address → String) (self : SimpleWallet) (e : WalletEntry) :
    Option (SimpleWallet × Option GoError) :=
  match entryVerify e with
  | some err => some (self, some err)
  | none =>
    let found : Bool := (self.GetEntry e.Address).2
    if found then
      some (self, some (GoError.errorsNew
        ("SimpleWallet entry already exists for address " ++ addressString e.Address)))
    else
      match self.Entries with
      | none => none
      | some m => some ({ self with Entries := some (mapAssign m e.Address e) }, none)

/-- An entry check for concrete runs: an entry is valid when its secret key is not empty. -/
def demoEntryVerify (e : WalletEntry) : Option GoError :=
  if e.Secret = [] then some (GoError.errorsNew "Invalid secret key") else none

/-- A wallet with one entry, for concrete runs. -/
def demoWallet : SimpleWallet :=
  { ID := "w", Name := "demo", Filename := "w.wlt"
    Entries := some [([1], { Address := [1], Public := [10], Secret := [11] })] }

/-- A wallet whose map of entries was never allocated, as the value `SimpleWallet{}`. -/
def nilWallet : SimpleWallet :=
  { ID := "", Name := "", Filename := "", Entries := none }

/-- Three aligned positions, for concrete runs. -/
def demoSortable : SortableTransactions :=
  { Txns := [demoPay 10 1, demoPay 30 2, demoPay 30 4]
    Fees := [1280, 3840, 3840]
    Hashes := [[87], [110], [116]] }

/-! ## Lemmas on Go maps -/

theorem mapAssign_keys {κ ν : Type} [DecidableEq κ] (m : List (κ × ν)) (k : κ) (v : ν) :
    (mapAssign m k v).map Prod.fst =
      if k ∈ m.map Prod.fst then m.map Prod.fst else m.map Prod.fst ++ [k] := by
  have hany : (m.any (fun p => decide (p.1 = k)) = true) ↔ k ∈ m.map Prod.fst := by
    simp only [List.any_eq_true, decide_eq_true_eq, List.mem_map]
  unfold mapAssign
  by_cases hk : k ∈ m.map Prod.fst
  · rw [if_pos (hany.mpr hk), if_pos hk, List.map_map]
    have hfun : ∀ p ∈ m, (Prod.fst ∘ fun p : κ × ν => if p.1 = k then (k, v) else p) p
        = Prod.fst p := by
      intro p _
      by_cases hp : p.1 = k <;> simp [hp]
    exact List.map_congr_left hfun
  · rw [if_neg (fun h => hk (hany.mp h)), if_neg hk]
    simp

theorem mapAssign_length {κ ν : Type} [DecidableEq κ] (m : List (κ × ν)) (k : κ) (v : ν) :
    (mapAssign m k v).length =
      if k ∈ m.map Prod.fst then m.length else m.length + 1 := by
  have h := congrArg List.length (mapAssign_keys m k v)
  rw [List.length_map] at h
  rw [h]
  split <;> simp

/-- Filling a Go map with the keys `f x`, for `x` in `l`: the map grows by at most one
binding a key, and by exactly one each time precisely when the keys are new and pairwise
different. -/
theorem foldl_mapAssign_length {α κ ν : Type} [DecidableEq κ] (f : α → κ) (v : ν) (l : List α) :
    ∀ m : List (κ × ν),
      (l.foldl (fun m x => mapAssign m (f x) v) m).length ≤ m.length + l.length ∧
      ((l.foldl (fun m x => mapAssign m (f x) v) m).length = m.length + l.length ↔
        (∀ x ∈ l, f x ∉ m.map Prod.fst) ∧ (l.map f).Nodup) := by
  induction l with
  | nil => intro m; simp
  | cons x l ih =>
    intro m
    obtain ⟨hle, hiff⟩ := ih (mapAssign m (f x) v)
    rw [mapAssign_length] at hle hiff
    rw [mapAssign_keys] at hiff
    simp only [List.foldl_cons, List.length_cons, List.map_cons, List.nodup_cons,
      List.mem_cons, forall_eq_or_imp]
    by_cases hk : f x ∈ m.map Prod.fst
    · simp only [if_pos hk] at hle hiff
      refine ⟨by omega, ?_⟩
      constructor
      · intro h; omega
      · rintro ⟨⟨h, _⟩, _⟩; exact absurd hk h
    · simp only [if_neg hk] at hle hiff
      refine ⟨by omega, ?_⟩
      have e : m.length + (l.length + 1) = m.length + 1 + l.length := by omega
      rw [e, hiff]
      constructor
      · rintro ⟨h1, h2⟩
        refine ⟨⟨hk, fun y hy hmem => h1 y hy (List.mem_append_left _ hmem)⟩, ?_, h2⟩
        intro hx
        obtain ⟨y, hy, hxy⟩ := List.mem_map.mp hx
        exact h1 y hy (List.mem_append_right _ (by simp [hxy]))
      · rintro ⟨⟨_, h1⟩, h2, h3⟩
        refine ⟨fun y hy hmem => ?_, h3⟩
        rcases List.mem_append.mp hmem with h | h
        · exact h1 y hy h
        · exact h2 (List.mem_map.mpr ⟨y, hy, by simpa using h⟩)

theorem uxOuts_length_iff (t : Transaction) : t.uxOuts.length = t.In.length ↔ t.In.Nodup := by
  have h := (foldl_mapAssign_length (fun h : SHA256 => h) (1 : Nat) t.In []).2
  simpa [Transaction.uxOuts] using h

theorem outputs_length_iff (env : Env) (t : Transaction) :
    (t.outputs env).length = t.Out.length ↔ (t.outputIdentityHashes env).Nodup := by
  have h := (foldl_mapAssign_length
    (fun o : TransactionOutput => env.UxBodyHash
      { SrcTransaction := t.Hash env, Address := o.Address, Coins := o.Coins, Hours := o.Hours })
    (1 : Nat) t.Out []).2
  simpa [Transaction.outputs, Transaction.outputIdentityHashes] using h

/-! ## Lemmas on the two loops of Verify -/

theorem verifySigs_eq (env : Env) (hash : SHA256) (sigs : List Sig) :
    verifySigs env hash sigs =
      ((sigs.filterMap (fun sig => env.VerifySignedHash sig hash)).head?).map GoError.cipher := by
  induction sigs with
  | nil => rfl
  | cons sig rest ih =>
    cases hv : env.VerifySignedHash sig hash with
    | none => simp [verifySigs, hv, ih, List.filterMap_cons]
    | some err => simp [verifySigs, hv, List.filterMap_cons]

theorem verifySigs_none_iff (env : Env) (hash : SHA256) (sigs : List Sig) :
    verifySigs env hash sigs = none ↔ ∀ sig ∈ sigs, env.VerifySignedHash sig hash = none := by
  induction sigs with
  | nil => simp [verifySigs]
  | cons sig rest ih =>
    cases hv : env.VerifySignedHash sig hash with
    | none => simp [verifySigs, hv, ih]
    | some err => simp [verifySigs, hv]

theorem verifyCoins_eq (outs : List TransactionOutput) :
    verifyCoins outs =
      (outs.find? (fun o => decide (o.Coins = 0 ∨ o.Coins % 1000000 ≠ 0))).map (fun o =>
        if o.Coins = 0 then GoError.errorsNew "Zero coin output"
        else GoError.errorsNew "Transaction outputs must be multiple of 1e6 base units") := by
  induction outs with
  | nil => rfl
  | cons o rest ih =>
    by_cases h0 : o.Coins = 0
    · simp [verifyCoins, h0, List.find?_cons]
    · by_cases h1 : o.Coins % 1000000 = 0
      · simp [verifyCoins, h0, h1, ih, List.find?_cons]
      · simp [verifyCoins, h0, h1, List.find?_cons]

theorem verifyCoins_none_iff (outs : List TransactionOutput) :
    verifyCoins outs = none ↔ ∀ o ∈ outs, o.Coins ≠ 0 ∧ o.Coins % 1000000 = 0 := by
  induction outs with
  | nil => simp [verifyCoins]
  | cons o rest ih =>
    by_cases h0 : o.Coins = 0
    · simp [verifyCoins, h0]
    · by_cases h1 : o.Coins % 1000000 = 0
      · simp [verifyCoins, h0, h1, ih]
      · simp [verifyCoins, h0, h1]

theorem firstFailing_none_iff (cs : List (Option GoError)) :
    firstFailing cs = none ↔ ∀ c ∈ cs, c = none := by
  induction cs with
  | nil => simp [firstFailing]
  | cons c rest ih =>
    cases c with
    | none => simp [firstFailing, ih]
    | some err => simp [firstFailing]

/-- The verdict of `Verify` once its first seven checks have passed. -/
theorem Verify_of_passed (env : Env) (t : Transaction)
    (h1 : t.hashInner env = t.Head.Hash) (h2 : t.In ≠ []) (h3 : t.Out ≠ [])
    (h4 : t.Head.Sigs.length = t.In.length) (h5 : t.Head.Sigs.length < MaxUint16)
    (h6 : t.In.Nodup) (h7 : (t.outputIdentityHashes env).Nodup) :
    t.Verify env =
      match verifySigs env t.Head.Hash t.Head.Sigs with
      | some err => some err
      | none => verifyCoins t.Out := by
  have h2' : ¬ t.In.length = 0 := fun h => h2 (List.length_eq_zero.mp h)
  have h3' : ¬ t.Out.length = 0 := fun h => h3 (List.length_eq_zero.mp h)
  have h5' : ¬ t.Head.Sigs.length ≥ MaxUint16 := by omega
  have h6' : t.uxOuts.length = t.In.length := (uxOuts_length_iff t).mpr h6
  have h7' : (t.outputs env).length = t.Out.length := (outputs_length_iff env t).mpr h7
  simp only [Transaction.Verify, ne_eq, h1, not_true_eq_false, if_false, h2', h3', h4, h5',
    h6', h7']
  rw [if_neg (by rw [← h4]; exact h5')]

theorem verifySigs_ne_errorsNew (env : Env) (hash : SHA256) (sigs : List Sig) (msg : String) :
    verifySigs env hash sigs ≠ some (GoError.errorsNew msg) := by
  induction sigs with
  | nil => simp [verifySigs]
  | cons sig rest ih =>
    cases hv : env.VerifySignedHash sig hash with
    | none => simpa [verifySigs, hv] using ih
    | some err => simp [verifySigs, hv]

theorem verifyCoins_cases (outs : List TransactionOutput) :
    verifyCoins outs = none ∨ verifyCoins outs = some (GoError.errorsNew "Zero coin output") ∨
      verifyCoins outs =
        some (GoError.errorsNew "Transaction outputs must be multiple of 1e6 base units") := by
  induction outs with
  | nil => simp [verifyCoins]
  | cons o rest ih =>
    by_cases h0 : o.Coins = 0
    · simp [verifyCoins, h0]
    · by_cases h1 : o.Coins % 1000000 = 0
      · simpa [verifyCoins, h0, h1] using ih
      · simp [verifyCoins, h0, h1]

theorem not_nodup_iff_positions {α : Type} (l : List α) :
    ¬ l.Nodup ↔ ∃ i j : Fin l.length, i ≠ j ∧ l.get i = l.get j := by
  rw [List.nodup_iff_injective_get]
  unfold Function.Injective
  push_neg
  constructor
  · rintro ⟨i, j, h, hne⟩; exact ⟨i, j, hne, h⟩
  · rintro ⟨i, j, hne, h⟩; exact ⟨i, j, h, hne⟩

/-- The fifth check of `Verify` fires as soon as the first four pass and there are at least
`math.MaxUint16` signatures. -/
theorem Verify_too_many (env : Env) (t : Transaction)
    (h1 : t.hashInner env = t.Head.Hash) (h2 : t.In ≠ []) (h3 : t.Out ≠ [])
    (h4 : t.Head.Sigs.length = t.In.length) (h5 : t.Head.Sigs.length ≥ MaxUint16) :
    t.Verify env = some (GoError.errorsNew "Too many signatures and inputs") := by
  have h2' : ¬ t.In.length = 0 := fun h => h2 (List.length_eq_zero.mp h)
  have h3' : ¬ t.Out.length = 0 := fun h => h3 (List.length_eq_zero.mp h)
  have h5' : t.In.length ≥ MaxUint16 := h4 ▸ h5
  simp only [Transaction.Verify, ne_eq, h1, not_true_eq_false, if_false, h2', h3', h4]
  rw [if_pos h5']

/-! ## Claims on Verify -/

/-- C1: for a transaction with fewer than 65,535 signatures, `Verify` returns the error of the
first failing check, the checks being taken in the order header hash, no inputs, no outputs,
signature count, repeated input, repeated output identity hash, failing signature, coins of an
output; and it returns nil exactly when none of these checks fails. -/
theorem Verify_first_failing_check (env : Env) (t : Transaction)
    (hlt : t.Head.Sigs.length < 65535) :
    t.Verify env = firstFailing (t.checks env) ∧
      (t.Verify env = none ↔ ∀ c ∈ t.checks env, c = none) := by
  have key : t.Verify env = firstFailing (t.checks env) := by
    have h5 : ¬ t.Head.Sigs.length ≥ MaxUint16 := by unfold MaxUint16; omega
    simp only [Transaction.Verify, Transaction.checks, ne_eq, List.length_eq_zero,
      uxOuts_length_iff, outputs_length_iff, h5, if_false, verifySigs_eq, verifyCoins_eq]
    by_cases c1 : t.hashInner env = t.Head.Hash
    swap
    · simp [c1, firstFailing]
    by_cases c2 : t.In = []
    · simp [c1, c2, firstFailing]
    by_cases c3 : t.Out = []
    · simp [c1, c2, c3, firstFailing]
    by_cases c4 : t.Head.Sigs.length = t.In.length
    swap
    · simp [c1, c2, c3, c4, firstFailing]
    by_cases c6 : t.In.Nodup
    swap
    · simp [c1, c2, c3, c4, c6, firstFailing]
    by_cases c7 : (t.outputIdentityHashes env).Nodup
    swap
    · simp [c1, c2, c3, c4, c6, c7, firstFailing]
    simp only [c1, c2, c3, c4, c6, c7, not_true_eq_false, if_false, firstFailing]
    cases (List.filterMap (fun sig => env.VerifySignedHash sig t.Head.Hash) t.Head.Sigs).head?
      with
    | none =>
      simp only [Option.map_none']
      cases (List.find? (fun o => decide (o.Coins = 0 ∨ o.Coins % 1000000 ≠ 0)) t.Out) <;>
        simp [firstFailing]
    | some err => simp [firstFailing]
  exact ⟨key, by rw [key]; exact firstFailing_none_iff _⟩

/-- Witness of C1: a one-input transaction with one signature. -/
theorem Verify_first_failing_check_witness :
    demoTxn.Head.Sigs.length < 65535 ∧
      demoTxn.Verify demoEnv = firstFailing (demoTxn.checks demoEnv) :=
  ⟨by decide, (Verify_first_failing_check demoEnv demoTxn (by decide)).1⟩

/-- C2: when `Verify` returns nil, the header hash is the inner hash of the inputs and
outputs, there is at least one input and one output, there are as many signatures as inputs,
fewer than 2^16 inputs, the input hashes are pairwise distinct, and the coins of every output
are nonzero and a multiple of 1,000,000. -/
theorem Verify_nil_invariants (env : Env) (t : Transaction) (h : t.Verify env = none) :
    t.Head.Hash = t.hashInner env ∧ t.In ≠ [] ∧ t.Out ≠ [] ∧
      t.Head.Sigs.length = t.In.length ∧ t.In.length < 2 ^ 16 ∧ t.In.Nodup ∧
      ∀ o ∈ t.Out, o.Coins ≠ 0 ∧ o.Coins % 1000000 = 0 := by
  unfold Transaction.Verify at h
  simp only [ne_eq, ge_iff_le] at h
  split_ifs at h with c1 c2 c3 c4 c5 c6 c7
  have hcoins : verifyCoins t.Out = none := by
    cases hs : verifySigs env t.Head.Hash t.Head.Sigs with
    | none => simpa [hs] using h
    | some err => simp [hs] at h
  refine ⟨c1.symm, fun h0 => c2 (by simp [h0]), fun h0 => c3 (by simp [h0]),
    c4, ?_, (uxOuts_length_iff t).mp c6, (verifyCoins_none_iff t.Out).mp hcoins⟩
  unfold MaxUint16 at c5
  omega

/-- Witness of C2: `Verify` accepts the one-input transaction. -/
theorem Verify_nil_invariants_witness :
    demoTxn.Verify demoEnv = none ∧ demoTxn.In.length < 2 ^ 16 ∧ demoTxn.In.Nodup :=
  have h := Verify_nil_invariants demoEnv demoTxn (by decide)
  ⟨by decide, h.2.2.2.2.1, h.2.2.2.2.2.1⟩

/-- C3: when the inner hash recomputed from the inputs and outputs differs from the stored
header hash, `Verify` returns the error "Invalid header hash", whatever the inputs, outputs
and signatures are. -/
theorem Verify_tampered (env : Env) (t : Transaction) (hne : t.hashInner env ≠ t.Head.Hash) :
    t.Verify env = some (GoError.errorsNew "Invalid header hash") := by
  simp [Transaction.Verify, hne]

/-- Witness of C3: an input of the accepted transaction is changed after signing. -/
theorem Verify_tampered_witness :
    ({ demoTxn with In := [[1, 2, 4]] } : Transaction).hashInner demoEnv
        ≠ ({ demoTxn with In := [[1, 2, 4]] } : Transaction).Head.Hash ∧
      ({ demoTxn with In := [[1, 2, 4]] } : Transaction).Verify demoEnv
        = some (GoError.errorsNew "Invalid header hash") :=
  ⟨by decide, Verify_tampered demoEnv _ (by decide)⟩

/-- C4: for a transaction with a correct header hash, at least one input and one output, and
as many signatures as inputs, fewer than 65,535, `Verify` returns the error "Duplicate spend"
if and only if two different input positions hold the same hash. -/
theorem Verify_duplicate_spend_iff (env : Env) (t : Transaction)
    (h1 : t.hashInner env = t.Head.Hash) (h2 : t.In ≠ []) (h3 : t.Out ≠ [])
    (h4 : t.Head.Sigs.length = t.In.length) (h5 : t.Head.Sigs.length < 65535) :
    t.Verify env = some (GoError.errorsNew "Duplicate spend") ↔
      ∃ i j : Fin t.In.length, i ≠ j ∧ t.In.get i = t.In.get j := by
  rw [← not_nodup_iff_positions]
  by_cases h6 : t.In.Nodup
  · have hno : t.Verify env ≠ some (GoError.errorsNew "Duplicate spend") := by
      by_cases h7 : (t.outputIdentityHashes env).Nodup
      · rw [Verify_of_passed env t h1 h2 h3 h4 h5 h6 h7]
        cases hs : verifySigs env t.Head.Hash t.Head.Sigs with
        | some err =>
          intro h
          have h' : verifySigs env t.Head.Hash t.Head.Sigs
              = some (GoError.errorsNew "Duplicate spend") := by
            rw [hs]; simpa using h
          exact verifySigs_ne_errorsNew env _ _ _ h'
        | none =>
          rcases verifyCoins_cases t.Out with h | h | h <;> simp [h]
      · have h2' : ¬ t.In.length = 0 := fun h => h2 (List.length_eq_zero.mp h)
        have h3' : ¬ t.Out.length = 0 := fun h => h3 (List.length_eq_zero.mp h)
        have h5' : ¬ t.In.length ≥ MaxUint16 := by unfold MaxUint16; omega
        have h6' : t.uxOuts.length = t.In.length := (uxOuts_length_iff t).mpr h6
        have h7' : ¬ (t.outputs env).length = t.Out.length :=
          fun h => h7 ((outputs_length_iff env t).mp h)
        simp [Transaction.Verify, h1, h2', h3', h4, h5', h6', h7']
    exact ⟨fun h => absurd h hno, fun h => absurd h6 h⟩
  · have h2' : ¬ t.In.length = 0 := fun h => h2 (List.length_eq_zero.mp h)
    have h3' : ¬ t.Out.length = 0 := fun h => h3 (List.length_eq_zero.mp h)
    have h5' : ¬ t.In.length ≥ MaxUint16 := by unfold MaxUint16; omega
    have h6' : ¬ t.uxOuts.length = t.In.length := fun h => h6 ((uxOuts_length_iff t).mp h)
    have hyes : t.Verify env = some (GoError.errorsNew "Duplicate spend") := by
      simp [Transaction.Verify, h1, h2', h3', h4, h5', h6']
    exact ⟨fun _ => h6, fun _ => hyes⟩

/-- Witness of C4: two inputs with the same hash. -/
theorem Verify_duplicate_spend_iff_witness :
    dupInTxn.Verify demoEnv = some (GoError.errorsNew "Duplicate spend") :=
  (Verify_duplicate_spend_iff demoEnv dupInTxn (by decide) (by decide) (by decide) (by decide)
    (by decide)).mpr ⟨⟨0, by decide⟩, ⟨1, by decide⟩, by decide, by decide⟩

/-- C5: for a transaction that passes the first six checks of `Verify` and has two different
output positions with the same address, coins and hours, `Verify` returns the error
"Duplicate output in transaction", whether or not its signatures are valid. -/
theorem Verify_duplicate_output (env : Env) (t : Transaction)
    (h1 : t.hashInner env = t.Head.Hash) (h2 : t.In ≠ []) (h3 : t.Out ≠ [])
    (h4 : t.Head.Sigs.length = t.In.length) (h5 : ¬ t.Head.Sigs.length ≥ MaxUint16)
    (h6 : t.In.Nodup)
    (hdup : ∃ i j : Fin t.Out.length, i ≠ j ∧ (t.Out.get i).Address = (t.Out.get j).Address ∧
      (t.Out.get i).Coins = (t.Out.get j).Coins ∧ (t.Out.get i).Hours = (t.Out.get j).Hours) :
    t.Verify env = some (GoError.errorsNew "Duplicate output in transaction") := by
  have h7 : ¬ (t.outputIdentityHashes env).Nodup := by
    obtain ⟨i, j, hne, ha, hc, hh⟩ := hdup
    intro hnd
    have hi : i.1 < (t.outputIdentityHashes env).length := by
      simp [Transaction.outputIdentityHashes]
    have hj : j.1 < (t.outputIdentityHashes env).length := by
      simp [Transaction.outputIdentityHashes]
    have heq : (t.outputIdentityHashes env).get ⟨i.1, hi⟩
        = (t.outputIdentityHashes env).get ⟨j.1, hj⟩ := by
      simp only [Transaction.outputIdentityHashes, List.get_eq_getElem, List.getElem_map]
      simp only [List.get_eq_getElem] at ha hc hh
      rw [ha, hc, hh]
    have := (List.nodup_iff_injective_get.mp hnd) heq
    exact hne (Fin.ext (by simpa using this))
  have h2' : ¬ t.In.length = 0 := fun h => h2 (List.length_eq_zero.mp h)
  have h3' : ¬ t.Out.length = 0 := fun h => h3 (List.length_eq_zero.mp h)
  have h5' : ¬ t.In.length ≥ MaxUint16 := h4 ▸ h5
  have h6' : t.uxOuts.length = t.In.length := (uxOuts_length_iff t).mpr h6
  have h7' : ¬ (t.outputs env).length = t.Out.length :=
    fun h => h7 ((outputs_length_iff env t).mp h)
  simp [Transaction.Verify, h1, h2', h3', h4, h5', h6', h7']

/-- Witness of C5: the same output twice, under a signature that does not verify. -/
theorem Verify_duplicate_output_witness :
    verifySigs demoEnv dupOutTxn.Head.Hash dupOutTxn.Head.Sigs ≠ none ∧
      dupOutTxn.Verify demoEnv = some (GoError.errorsNew "Duplicate output in transaction") :=
  ⟨by decide,
    Verify_duplicate_output demoEnv dupOutTxn (by decide) (by decide) (by decide) (by decide)
      (by decide) (by decide) ⟨⟨0, by decide⟩, ⟨1, by decide⟩, by decide, by decide, by decide,
        by decide⟩⟩

/-- C6: for a transaction that passes the first eight checks of `Verify`, `Verify` returns nil
if and only if the coins of every output are nonzero and a multiple of 1,000,000; an output
with coins 0 or 1,500,000 makes it return an error, outputs of 2,000,000 coins are accepted,
and the loop over the coins gives the same verdict whatever the hours of the outputs are. -/
theorem Verify_coins_policy (env : Env) (t : Transaction)
    (h1 : t.hashInner env = t.Head.Hash) (h2 : t.In ≠ []) (h3 : t.Out ≠ [])
    (h4 : t.Head.Sigs.length = t.In.length) (h5 : ¬ t.Head.Sigs.length ≥ MaxUint16)
    (h6 : t.In.Nodup) (h7 : (t.outputIdentityHashes env).Nodup)
    (h8 : ∀ sig ∈ t.Head.Sigs, env.VerifySignedHash sig t.Head.Hash = none) :
    (t.Verify env = none ↔ ∀ o ∈ t.Out, o.Coins ≠ 0 ∧ o.Coins % 1000000 = 0) ∧
      ((∃ o ∈ t.Out, o.Coins = 0 ∨ o.Coins = 1500000) → t.Verify env ≠ none) ∧
      ((∀ o ∈ t.Out, o.Coins = 2000000) → t.Verify env = none) ∧
      (∀ hours : TransactionOutput → Nat,
        verifyCoins (t.Out.map (fun o => { o with Hours := hours o })) = verifyCoins t.Out) := by
  have hv : t.Verify env = verifyCoins t.Out := by
    rw [Verify_of_passed env t h1 h2 h3 h4 (by omega) h6 h7,
      (verifySigs_none_iff env t.Head.Hash t.Head.Sigs).mpr h8]
  have hiff : t.Verify env = none ↔ ∀ o ∈ t.Out, o.Coins ≠ 0 ∧ o.Coins % 1000000 = 0 := by
    rw [hv]; exact verifyCoins_none_iff t.Out
  refine ⟨hiff, ?_, ?_, ?_⟩
  · rintro ⟨o, ho, hc⟩ hnil
    have := hiff.mp hnil o ho
    rcases hc with hc | hc <;> omega
  · intro hall
    refine hiff.mpr (fun o ho => ?_)
    have := hall o ho
    omega
  · intro hours
    generalize t.Out = outs
    induction outs with
    | nil => rfl
    | cons o rest ih => simp only [List.map_cons, verifyCoins, ih]

/-- Witness of C6: the accepted transaction has one output of 2,000,000 coins. -/
theorem Verify_coins_policy_witness :
    (∀ o ∈ demoTxn.Out, o.Coins = 2000000) ∧ demoTxn.Verify demoEnv = none :=
  ⟨by decide,
    (Verify_coins_policy demoEnv demoTxn (by decide) (by decide) (by decide) (by decide)
      (by decide) (by decide) (by decide) (by decide)).2.2.1 (by decide)⟩

/-- C7: a transaction with no input, or no output, or a signature count different from its
input count is rejected by `Verify`, whatever its header hash and other fields are. -/
theorem Verify_rejects_malformed (env : Env) (t : Transaction)
    (h : t.In.length = 0 ∨ t.Out.length = 0 ∨ t.Head.Sigs.length ≠ t.In.length) :
    t.Verify env ≠ none := by
  by_cases c1 : t.hashInner env = t.Head.Hash
  swap
  · simp [Transaction.Verify, c1]
  by_cases c2 : t.In.length = 0
  · simp [Transaction.Verify, c1, c2]
  by_cases c3 : t.Out.length = 0
  · simp [Transaction.Verify, c1, c2, c3]
  have c4 : t.Head.Sigs.length ≠ t.In.length := by
    rcases h with h | h | h
    · exact absurd h c2
    · exact absurd h c3
    · exact h
  simp [Transaction.Verify, c1, c2, c3, c4]

/-- Witness of C7: the accepted transaction with its signature removed. -/
theorem Verify_rejects_malformed_witness :
    ({ demoTxn with Head := { Hash := [150], Sigs := [] } } : Transaction).Verify demoEnv
      ≠ none :=
  Verify_rejects_malformed demoEnv _ (Or.inr (Or.inr (by decide)))

/-- C8, the code at the boundary: a transaction with exactly 65,535 signatures, which is fewer
than 2^16, 65,535 different inputs, one output and a correct header hash is rejected by
`Verify` with "Too many signatures and inputs". -/
theorem Verify_rejects_65535_signatures :
    maxSigsTxn.hashInner constEnv = maxSigsTxn.Head.Hash ∧
      maxSigsTxn.Head.Sigs.length = 65535 ∧ maxSigsTxn.In.length = 65535 ∧
      maxSigsTxn.Head.Sigs.length < 2 ^ 16 ∧
      maxSigsTxn.Verify constEnv = some (GoError.errorsNew "Too many signatures and inputs") := by
  have hs : maxSigsTxn.Head.Sigs.length = 65535 := by
    simp only [maxSigsTxn, List.length_replicate]
  have hi : maxSigsTxn.In.length = 65535 := by
    simp only [maxSigsTxn, List.length_map, List.length_range]
  have h2 : maxSigsTxn.In ≠ [] := by
    intro h
    rw [h] at hi
    exact absurd hi (by simp only [List.length_nil]; omega)
  have h3 : maxSigsTxn.Out ≠ [] := List.cons_ne_nil _ _
  refine ⟨rfl, hs, hi, by rw [hs]; norm_num, ?_⟩
  exact Verify_too_many constEnv maxSigsTxn rfl h2 h3 (hs.trans hi.symm)
    (by rw [hs]; exact Nat.le_refl _)

/-! ## Lemmas on the comparison -/

theorem bytesCompare_neg_iff (a b : List Nat) :
    bytesCompare a b < 0 ↔ List.Lex (fun x y : Nat => x < y) a b := by
  induction a generalizing b with
  | nil =>
    cases b with
    | nil => simp [bytesCompare, List.Lex.not_nil_right]
    | cons y ys => simp [bytesCompare, List.Lex.nil]
  | cons x xs ih =>
    cases b with
    | nil => simp [bytesCompare, List.Lex.not_nil_right]
    | cons y ys =>
      unfold bytesCompare
      by_cases h1 : x < y
      · simp [h1, List.Lex.rel]
      · by_cases h2 : y < x
        · simp only [h1, h2, if_false, if_true]
          constructor
          · intro h; omega
          · intro h
            cases h with
            | cons _ => omega
            | rel h => omega
        · have hxy : x = y := by omega
          subst hxy
          simp only [h1, if_false, ih, List.Lex.cons_iff]

theorem lex_iff_lt (a b : List Nat) : List.Lex (fun x y : Nat => x < y) a b ↔ a < b :=
  Iff.rfl

theorem entryLess_iff (x y : Entry) :
    entryLess x y = true ↔ x.2.1 > y.2.1 ∨ (x.2.1 = y.2.1 ∧ x.2.2 < y.2.2) := by
  unfold entryLess
  by_cases h : x.2.1 = y.2.1
  · simp [h, bytesCompare_neg_iff, lex_iff_lt]
  · simp [h]

theorem notAfter_iff (a b : Entry) :
    notAfter a b ↔ a.2.1 > b.2.1 ∨ (a.2.1 = b.2.1 ∧ a.2.2 ≤ b.2.2) := by
  unfold notAfter
  rw [← Bool.not_eq_true, entryLess_iff]
  constructor
  · intro h
    rcases Nat.lt_trichotomy a.2.1 b.2.1 with h1 | h1 | h1
    · exact absurd (Or.inl h1) h
    · exact Or.inr ⟨h1, not_lt.mp (fun hlt => h (Or.inr ⟨h1.symm, hlt⟩))⟩
    · exact Or.inl h1
  · rintro (h | ⟨h1, h2⟩) (h' | ⟨h1', h2'⟩)
    · omega
    · omega
    · omega
    · exact absurd h2' (not_lt.mpr h2)

theorem notAfter_trans {a b c : Entry} (hab : notAfter a b) (hbc : notAfter b c) :
    notAfter a c := by
  rw [notAfter_iff] at *
  rcases hab with h | ⟨h1, h2⟩ <;> rcases hbc with h' | ⟨h1', h2'⟩
  · left; omega
  · left; omega
  · left; omega
  · right; exact ⟨h1.trans h1', le_trans h2 h2'⟩

theorem notAfter_of_entryLess {a b : Entry} (h : entryLess a b = true) : notAfter a b := by
  rw [notAfter_iff]
  rcases (entryLess_iff a b).mp h with h | ⟨h1, h2⟩
  · exact Or.inl h
  · exact Or.inr ⟨h1, le_of_lt h2⟩

/-! ## Lemmas on positions of a slice -/

theorem getElem?_at_length {α : Type} (l : List α) (a : α) (r : List α) (n : Nat)
    (hn : n = l.length) : (l ++ a :: r)[n]? = some a := by
  subst hn
  induction l with
  | nil => simp
  | cons b l ih => simpa using ih

theorem set_at_length {α : Type} (l : List α) (a b : α) (r : List α) (n : Nat)
    (hn : n = l.length) : (l ++ a :: r).set n b = l ++ b :: r := by
  subst hn
  induction l with
  | nil => rfl
  | cons c l ih => simp [ih]

/-- Swapping two neighbours of a slice. -/
theorem swapAt_neighbours {α : Type} (l : List α) (y x : α) (r : List α) (n : Nat)
    (hn : n = l.length) : swapAt (l ++ y :: x :: r) (n + 1) n = some (l ++ x :: y :: r) := by
  have h0 : (l ++ y :: x :: r)[n]? = some y := getElem?_at_length l y (x :: r) n hn
  have e1 : l ++ y :: x :: r = (l ++ [y]) ++ x :: r := by simp
  have h1 : (l ++ y :: x :: r)[n + 1]? = some x := by
    rw [e1]
    exact getElem?_at_length (l ++ [y]) x r (n + 1) (by simp [hn])
  unfold swapAt
  rw [h1, h0]
  have s1 : (l ++ y :: x :: r).set (n + 1) y = l ++ y :: y :: r := by
    rw [e1, set_at_length (l ++ [y]) x y r (n + 1) (by simp [hn])]
    simp
  simp only [s1, set_at_length l y x (y :: r) n hn]

theorem swapAt_map {α β : Type} (f : α → β) (l : List α) (i j : Nat) :
    swapAt (l.map f) i j = (swapAt l i j).map (List.map f) := by
  unfold swapAt
  rw [List.getElem?_map, List.getElem?_map]
  cases l[i]? <;> cases l[j]? <;> simp [List.map_set]

theorem Less_ofEntries (es : List Entry) (i j : Nat) (a b : Entry)
    (hi : es[i]? = some a) (hj : es[j]? = some b) :
    (ofEntries es).Less i j = some (entryLess a b) := by
  unfold SortableTransactions.Less ofEntries entryLess
  simp only [List.getElem?_map, hi, hj, Option.map_some']
  by_cases h : a.2.1 = b.2.1 <;> simp [h]

theorem Swap_ofEntries (es es' : List Entry) (i j : Nat) (h : swapAt es i j = some es') :
    (ofEntries es).Swap i j = some (ofEntries es') := by
  unfold SortableTransactions.Swap ofEntries
  simp only [swapAt_map, h, Option.map_some']

/-! ## Lemmas on the insertion sort -/

theorem insertionSortInner_ofEntries (x : Entry) (before : List Entry) :
    ∀ after : List Entry,
      insertionSortInner (ofEntries (before.reverse ++ x :: after)) before.length
        = some (ofEntries (insertBack x before ++ after)) := by
  induction before with
  | nil => intro after; rfl
  | cons y before ih =>
    intro after
    have e : (y :: before).reverse ++ x :: after = before.reverse ++ y :: x :: after := by simp
    have hlen : before.length = before.reverse.length := by simp
    have hless : (ofEntries (before.reverse ++ y :: x :: after)).Less (before.length + 1)
        before.length = some (entryLess x y) := by
      apply Less_ofEntries
      · have e1 : before.reverse ++ y :: x :: after = (before.reverse ++ [y]) ++ x :: after := by
          simp
        rw [e1]
        exact getElem?_at_length _ x after _ (by simp)
      · exact getElem?_at_length _ y (x :: after) _ hlen
    rw [e]
    simp only [List.length_cons, insertionSortInner, hless]
    cases hxy : entryLess x y with
    | false =>
      simp only [insertBack, hxy, Bool.false_eq_true, if_false]
      simp
    | true =>
      have hswap := Swap_ofEntries _ _ _ _
        (swapAt_neighbours before.reverse y x after before.length hlen)
      simp only [hswap, ih (y :: after), insertBack, hxy, if_true]
      simp

theorem insertBack_perm (x : Entry) (before : List Entry) :
    (insertBack x before).Perm (before.reverse ++ [x]) := by
  induction before with
  | nil => exact List.Perm.refl _
  | cons y before ih =>
    unfold insertBack
    by_cases hxy : entryLess x y = true
    · rw [if_pos hxy]
      have h1 : (insertBack x before ++ [y]).Perm ((before.reverse ++ [x]) ++ [y]) :=
        List.Perm.append_right [y] ih
      refine h1.trans ?_
      simp only [List.reverse_cons, List.append_assoc]
      exact List.Perm.append_left _ (List.Perm.swap _ _ _)
    · rw [if_neg hxy]

theorem insertBack_sorted (x : Entry) (before : List Entry)
    (h : before.reverse.Pairwise notAfter) : (insertBack x before).Pairwise notAfter := by
  induction before with
  | nil => simp [insertBack]
  | cons y before ih =>
    rw [List.reverse_cons, List.pairwise_append] at h
    obtain ⟨hbefore, _, hy⟩ := h
    have hy' : ∀ z ∈ before, notAfter z y := fun z hz =>
      hy z (List.mem_reverse.mpr hz) y (List.mem_singleton.mpr rfl)
    unfold insertBack
    by_cases hxy : entryLess x y = true
    · rw [if_pos hxy, List.pairwise_append]
      refine ⟨ih hbefore, List.pairwise_singleton _ _, ?_⟩
      intro z hz w hw
      rw [List.mem_singleton.mp hw]
      have hz' := (insertBack_perm x before).mem_iff.mp hz
      rcases List.mem_append.mp hz' with hz' | hz'
      · exact hy' z (List.mem_reverse.mp hz')
      · rw [List.mem_singleton.mp hz']
        exact notAfter_of_entryLess hxy
    · rw [if_neg hxy, List.pairwise_append]
      have hyx : notAfter y x := by simpa [notAfter] using hxy
      refine ⟨?_, List.pairwise_singleton _ _, ?_⟩
      · rw [List.reverse_cons, List.pairwise_append]
        exact ⟨hbefore, List.pairwise_singleton _ _, fun z hz w hw => by
          rw [List.mem_singleton.mp hw]; exact hy' z (List.mem_reverse.mp hz)⟩
      · intro z hz w hw
        rw [List.mem_singleton.mp hw]
        rcases List.mem_cons.mp (List.mem_reverse.mp hz) with hz' | hz'
        · rw [hz']; exact hyx
        · exact notAfter_trans (hy' z hz') hyx

theorem insertBack_length (x : Entry) (before : List Entry) :
    (insertBack x before).length = before.length + 1 := by
  have := (insertBack_perm x before).length_eq
  simpa using this

theorem insertionSortOuter_ofEntries (after : List Entry) :
    ∀ sorted : List Entry, sorted.Pairwise notAfter →
      ∃ es, insertionSortOuter (ofEntries (sorted ++ after)) sorted.length after.length
          = some (ofEntries es) ∧ es.Perm (sorted ++ after) ∧ es.Pairwise notAfter := by
  induction after with
  | nil =>
    intro sorted hs
    exact ⟨sorted, by simp [insertionSortOuter], by simp, hs⟩
  | cons x after ih =>
    intro sorted hs
    have hinner := insertionSortInner_ofEntries x sorted.reverse after
    rw [List.reverse_reverse, List.length_reverse] at hinner
    have hs' : (insertBack x sorted.reverse).Pairwise notAfter :=
      insertBack_sorted x sorted.reverse (by rwa [List.reverse_reverse])
    obtain ⟨es, hrun, hperm, hsorted⟩ := ih (insertBack x sorted.reverse) hs'
    rw [insertBack_length, List.length_reverse] at hrun
    refine ⟨es, ?_, ?_, hsorted⟩
    · simp only [List.length_cons, insertionSortOuter, hinner]
      exact hrun
    · refine hperm.trans ?_
      have hp := insertBack_perm x sorted.reverse
      rw [List.reverse_reverse] at hp
      have := List.Perm.append_right after hp
      simpa using this

theorem sortSort_ofEntries (es : List Entry) :
    ∃ sorted, sortSort (ofEntries es) = some (ofEntries sorted) ∧ sorted.Perm es ∧
      sorted.Pairwise notAfter := by
  cases es with
  | nil => exact ⟨[], rfl, List.Perm.refl _, List.Pairwise.nil⟩
  | cons e rest =>
    obtain ⟨sorted, hrun, hperm, hsorted⟩ :=
      insertionSortOuter_ofEntries rest [e] (List.pairwise_singleton _ _)
    refine ⟨sorted, ?_, hperm, hsorted⟩
    have hlen : (ofEntries (e :: rest)).Len - 1 = rest.length := by
      simp [SortableTransactions.Len, ofEntries]
    unfold sortSort
    rw [hlen]
    exact hrun

theorem isSortedLoop_ofEntries (es : List Entry) (hs : es.Pairwise notAfter) :
    ∀ n, n < es.length → isSortedLoop (ofEntries es) n = some true := by
  intro n
  induction n with
  | zero => intro _; rfl
  | succ n ih =>
    intro hn
    have hn' : n < es.length := by omega
    have hless := Less_ofEntries es (n + 1) n es[n + 1] es[n]
      (List.getElem?_eq_getElem hn) (List.getElem?_eq_getElem hn')
    have hord : notAfter es[n] es[n + 1] :=
      List.pairwise_iff_getElem.mp hs n (n + 1) hn' hn (Nat.lt_succ_self n)
    unfold notAfter at hord
    simp only [isSortedLoop, hless, hord]
    exact ih hn'

theorem IsSorted_ofEntries (es : List Entry) (hs : es.Pairwise notAfter) :
    (ofEntries es).IsSorted = some true := by
  unfold SortableTransactions.IsSorted
  cases es with
  | nil => rfl
  | cons e rest =>
    apply isSortedLoop_ofEntries _ hs
    simp [SortableTransactions.Len, ofEntries]

/-! ## Lemmas on newSortableTransactions -/

theorem entryOf_aligned (env : Env) (feeCalc : FeeCalculator) (t : Transaction) (e : Entry)
    (h : entryOf env feeCalc t = some e) : e.1 = t ∧ Aligned env feeCalc e := by
  unfold entryOf at h
  cases hf : feeCalc t with
  | error err => simp [hf] at h
  | ok fee =>
    simp only [hf, Option.some.injEq] at h
    subst h
    simp [Aligned, feeDensity, hf]

theorem entriesOf_aligned (env : Env) (feeCalc : FeeCalculator) (txns : Transactions) :
    ∀ e ∈ entriesOf env feeCalc txns, Aligned env feeCalc e := by
  intro e he
  obtain ⟨t, _, ht⟩ := List.mem_filterMap.mp he
  exact (entryOf_aligned env feeCalc t e ht).2

theorem entriesOf_txns (env : Env) (feeCalc : FeeCalculator) (txns : Transactions) :
    (entriesOf env feeCalc txns).map (fun e => e.1) = txns.filter (feeOk feeCalc) := by
  induction txns with
  | nil => rfl
  | cons t rest ih =>
    unfold entriesOf at *
    cases hf : feeCalc t with
    | error err => simp [List.filterMap_cons, List.filter_cons, entryOf, feeOk, hf, ih]
    | ok fee => simp [List.filterMap_cons, List.filter_cons, entryOf, feeOk, hf, ih]

theorem newSortableLoop_entries (env : Env) (feeCalc : FeeCalculator) (txns : Transactions) :
    ∀ (done : List Entry) (room : Nat), txns.length ≤ room →
      (∀ t ∈ txns, 0 < t.Size env) →
      newSortableLoop env feeCalc txns
          (done.map (fun e => e.1) ++ List.replicate room default,
            done.map (fun e => e.2.1) ++ List.replicate room 0,
            done.map (fun e => e.2.2) ++ List.replicate room [], done.length)
        = some
          ((done ++ entriesOf env feeCalc txns).map (fun e => e.1)
              ++ List.replicate (room - (entriesOf env feeCalc txns).length) default,
            (done ++ entriesOf env feeCalc txns).map (fun e => e.2.1)
              ++ List.replicate (room - (entriesOf env feeCalc txns).length) 0,
            (done ++ entriesOf env feeCalc txns).map (fun e => e.2.2)
              ++ List.replicate (room - (entriesOf env feeCalc txns).length) [],
            (done ++ entriesOf env feeCalc txns).length) := by
  induction txns with
  | nil =>
    intro done room _ _
    simp [newSortableLoop, entriesOf]
  | cons t rest ih =>
    intro done room hroom hsize
    have hrest : ∀ t ∈ rest, 0 < t.Size env := fun u hu => hsize u (List.mem_cons_of_mem _ hu)
    have ht : 0 < t.Size env := hsize t (List.mem_cons_self _ _)
    simp only [List.length_cons] at hroom
    cases hf : feeCalc t with
    | error err =>
      have he : entriesOf env feeCalc (t :: rest) = entriesOf env feeCalc rest := by
        simp [entriesOf, List.filterMap_cons, entryOf, hf]
      rw [he]
      simp only [newSortableLoop, hf]
      exact ih done room (by omega) hrest
    | ok fee =>
      have he : entriesOf env feeCalc (t :: rest)
          = (t, (fee * 1024) % 2 ^ 64 / t.Size env, t.Hash env) :: entriesOf env feeCalc rest := by
        simp [entriesOf, List.filterMap_cons, entryOf, hf]
      obtain ⟨room', rfl⟩ : ∃ room', room = room' + 1 := ⟨room - 1, by omega⟩
      have hne : ¬ (t.Serialize env).length = 0 := by
        unfold Transaction.Size at ht; omega
      have step := ih (done ++ [(t, (fee * 1024) % 2 ^ 64 / t.Size env, t.Hash env)]) room'
        (by omega) hrest
      rw [he]
      simp only [newSortableLoop, hf, Transaction.SizeHash, hne, if_false, List.replicate_succ]
      rw [set_at_length _ _ _ _ _ (by simp), set_at_length _ _ _ _ _ (by simp),
        set_at_length _ _ _ _ _ (by simp)]
      simp only [List.map_append, List.map_cons, List.map_nil, List.append_assoc,
        List.singleton_append, List.length_append, List.length_cons, List.length_nil,
        Transaction.Size, Transaction.Hash] at step ⊢
      rw [step]
      have e1 : room' + 1 - ((entriesOf env feeCalc rest).length + 1)
          = room' - (entriesOf env feeCalc rest).length := by omega
      have e2 : done.length + ((entriesOf env feeCalc rest).length + 1)
          = done.length + (0 + 1 + (entriesOf env feeCalc rest).length) := by omega
      rw [e1, e2]

theorem newSortableTransactions_entries (env : Env) (txns : Transactions)
    (feeCalc : FeeCalculator) (hsize : ∀ t ∈ txns, 0 < t.Size env) :
    newSortableTransactions env txns feeCalc = some (ofEntries (entriesOf env feeCalc txns)) := by
  have h := newSortableLoop_entries env feeCalc txns [] txns.length (Nat.le_refl _) hsize
  simp only [List.map_nil, List.nil_append, List.length_nil] at h
  unfold newSortableTransactions
  simp only [h, ofEntries]
  rw [List.take_left' (List.length_map _ _), List.take_left' (List.length_map _ _),
    List.take_left' (List.length_map _ _)]

/-- The run of `SortTransactions` on entries: the sorted value is a rearrangement of the
entries written by `newSortableTransactions`, in the order of `Less`. -/
theorem sortedTransactions_entries (env : Env) (txns : Transactions) (feeCalc : FeeCalculator)
    (hsize : ∀ t ∈ txns, 0 < t.Size env) :
    ∃ sorted, sortedTransactions env txns feeCalc = some (ofEntries sorted) ∧
      sorted.Perm (entriesOf env feeCalc txns) ∧ sorted.Pairwise notAfter := by
  obtain ⟨sorted, hrun, hperm, hsorted⟩ := sortSort_ofEntries (entriesOf env feeCalc txns)
  refine ⟨sorted, ?_, hperm, hsorted⟩
  unfold sortedTransactions
  rw [newSortableTransactions_entries env txns feeCalc hsize]
  exact hrun

theorem mayPrecede_of_notAfter (env : Env) (feeCalc : FeeCalculator) (a b : Entry)
    (ha : Aligned env feeCalc a) (hb : Aligned env feeCalc b) (h : notAfter a b) :
    mayPrecede env feeCalc a.1 b.1 := by
  unfold mayPrecede
  rw [← ha.1, ← hb.1, ← ha.2, ← hb.2]
  rcases (notAfter_iff a b).mp h with h | ⟨h1, h2⟩
  · exact Or.inl h
  · refine Or.inr ⟨h1, ?_⟩
    rcases eq_or_lt_of_le h2 with h3 | h3
    · exact Or.inl h3
    · exact Or.inr h3

/-! ## Claims on SortTransactions -/

/-- C9: the output of `SortTransactions` is ordered by the comparator: of two adjacent
transactions the first has the strictly greater fee density, or the densities are equal and
its identity hash is lexicographically less than or equal to that of the second; and
`IsSorted` is true on the sorted value.  The encoded size of every transaction is taken to be
positive. -/
theorem SortTransactions_ordered (env : Env) (txns : Transactions) (feeCalc : FeeCalculator)
    (hsize : ∀ t ∈ txns, 0 < t.Size env) :
    ∃ sorted, sortedTransactions env txns feeCalc = some sorted ∧
      SortTransactions env txns feeCalc = some sorted.Txns ∧
      List.Chain' (mayPrecede env feeCalc) sorted.Txns ∧
      sorted.IsSorted = some true := by
  obtain ⟨es, hrun, hperm, hsorted⟩ := sortedTransactions_entries env txns feeCalc hsize
  refine ⟨ofEntries es, hrun, ?_, ?_, IsSorted_ofEntries es hsorted⟩
  · simp [SortTransactions, hrun]
  · have hal : ∀ e ∈ es, Aligned env feeCalc e := fun e he =>
      entriesOf_aligned env feeCalc txns e (hperm.mem_iff.mp he)
    have hpw : (es.map (fun e => e.1)).Pairwise (mayPrecede env feeCalc) := by
      rw [List.pairwise_map]
      exact hsorted.imp_of_mem (fun {a b} ha hb hab =>
        mayPrecede_of_notAfter env feeCalc a b (hal a ha) (hal b hb) hab)
    exact hpw.chain'

/-- Witness of C9: four transactions, one of them without a fee. -/
theorem SortTransactions_ordered_witness :
    (∀ t ∈ demoTxns, 0 < t.Size demoEnv) ∧
      ∃ sorted, sortedTransactions demoEnv demoTxns demoFee = some sorted ∧
        SortTransactions demoEnv demoTxns demoFee = some sorted.Txns ∧
        List.Chain' (mayPrecede demoEnv demoFee) sorted.Txns ∧
        sorted.IsSorted = some true :=
  ⟨by decide, SortTransactions_ordered demoEnv demoTxns demoFee (by decide)⟩

/-- C10: `SortTransactions` returns a list, and that list is a rearrangement of the input
transactions for which the fee calculator returns a fee: each of them occurs as often as in
the input, a transaction whose fee calculation fails does not occur, and the length is the
number of successes.  The encoded size of every transaction is taken to be positive. -/
theorem SortTransactions_perm (env : Env) (txns : Transactions) (feeCalc : FeeCalculator)
    (hsize : ∀ t ∈ txns, 0 < t.Size env) :
    ∃ out, SortTransactions env txns feeCalc = some out ∧
      out.Perm (txns.filter (feeOk feeCalc)) ∧
      (∀ t, out.count t = if feeOk feeCalc t = true then txns.count t else 0) ∧
      out.length = txns.countP (feeOk feeCalc) := by
  obtain ⟨es, hrun, hperm, _⟩ := sortedTransactions_entries env txns feeCalc hsize
  have hp : (es.map (fun e => e.1)).Perm (txns.filter (feeOk feeCalc)) := by
    rw [← entriesOf_txns env feeCalc txns]
    exact hperm.map _
  refine ⟨es.map (fun e => e.1), ?_, hp, ?_, ?_⟩
  · simp [SortTransactions, hrun, ofEntries]
  · intro t
    rw [hp.count_eq]
    by_cases hok : feeOk feeCalc t = true
    · rw [if_pos hok, List.count_filter hok]
    · rw [if_neg hok]
      exact List.count_eq_zero_of_not_mem (fun hmem => hok (List.mem_filter.mp hmem).2)
  · rw [hp.length_eq, List.countP_eq_length_filter]

/-- Witness of C10: four transactions, one of them without a fee. -/
theorem SortTransactions_perm_witness :
    (∀ t ∈ demoTxns, 0 < t.Size demoEnv) ∧
      ∃ out, SortTransactions demoEnv demoTxns demoFee = some out ∧
        out.Perm (demoTxns.filter (feeOk demoFee)) ∧
        (∀ t, out.count t = if feeOk demoFee t = true then demoTxns.count t else 0) ∧
        out.length = demoTxns.countP (feeOk demoFee) :=
  ⟨by decide, SortTransactions_perm demoEnv demoTxns demoFee (by decide)⟩

/-! ## Claims on the fee density -/

/-- C12, as the code has it: for every transaction with a fee `f` and encoded size `s > 0`,
the ranking key written by `newSortableTransactions` at the position of the transaction is
`floor(((f * 1024) mod 2^64) / s)`, the product being a 64-bit unsigned one formed before the
division; it is `floor(f * 1024 / s)` whenever `f < 2^54`, so that the product does not
wrap. -/
theorem newSortableTransactions_density (env : Env) (txns : Transactions)
    (feeCalc : FeeCalculator) (hsize : ∀ t ∈ txns, 0 < t.Size env) :
    ∃ sortable, newSortableTransactions env txns feeCalc = some sortable ∧
      sortable.Txns = txns.filter (feeOk feeCalc) ∧
      ∀ (i : Nat) (t : Transaction), sortable.Txns[i]? = some t →
        sortable.Fees[i]? = some ((feeOf feeCalc t * 1024) % 2 ^ 64 / t.Size env) ∧
        (feeOf feeCalc t < 2 ^ 54 →
          sortable.Fees[i]? = some (feeOf feeCalc t * 1024 / t.Size env)) := by
  have hal : ∀ e ∈ entriesOf env feeCalc txns,
      e.2.1 = (feeOf feeCalc e.1 * 1024) % 2 ^ 64 / e.1.Size env := by
    intro e he
    have h := (entriesOf_aligned env feeCalc txns e he).1
    rw [h]
    unfold feeDensity feeOf
    cases feeCalc e.1 with
    | error err => simp
    | ok fee => rfl
  have hfees : (ofEntries (entriesOf env feeCalc txns)).Fees
      = (ofEntries (entriesOf env feeCalc txns)).Txns.map
        (fun t => (feeOf feeCalc t * 1024) % 2 ^ 64 / t.Size env) := by
    simp only [ofEntries, List.map_map]
    exact List.map_congr_left (fun e he => hal e he)
  refine ⟨ofEntries (entriesOf env feeCalc txns),
    newSortableTransactions_entries env txns feeCalc hsize, entriesOf_txns env feeCalc txns,
    ?_⟩
  intro i t hit
  have hkey : (ofEntries (entriesOf env feeCalc txns)).Fees[i]?
      = some ((feeOf feeCalc t * 1024) % 2 ^ 64 / t.Size env) := by
    rw [hfees, List.getElem?_map, hit]
    rfl
  refine ⟨hkey, fun hsmall => ?_⟩
  have hlt : feeOf feeCalc t * 1024 < 2 ^ 64 := by omega
  rw [hkey, Nat.mod_eq_of_lt hlt]

/-- Witness of C12 as amended: the four transactions of the demonstration. -/
theorem newSortableTransactions_density_witness :
    (∀ t ∈ demoTxns, 0 < t.Size demoEnv) ∧
      ∃ sortable, newSortableTransactions demoEnv demoTxns demoFee = some sortable ∧
        sortable.Txns = demoTxns.filter (feeOk demoFee) ∧
        ∀ (i : Nat) (t : Transaction), sortable.Txns[i]? = some t →
          sortable.Fees[i]? = some ((feeOf demoFee t * 1024) % 2 ^ 64 / t.Size demoEnv) ∧
          (feeOf demoFee t < 2 ^ 54 →
            sortable.Fees[i]? = some (feeOf demoFee t * 1024 / t.Size demoEnv)) :=
  ⟨by decide, newSortableTransactions_density demoEnv demoTxns demoFee (by decide)⟩

/-- C12 as stated fails: a transaction of encoded size 12 with the fee 2^54, a 64-bit value,
gets the ranking key 0, and `floor(2^54 * 1024 / 12)` is not 0. -/
theorem newSortableTransactions_density_overflow :
    demoTxn.Size demoEnv = 12 ∧ (2 : Nat) ^ 54 < 2 ^ 64 ∧
      constFee (2 ^ 54) demoTxn = Except.ok (2 ^ 54) ∧
      (∃ sortable, newSortableTransactions demoEnv [demoTxn] (constFee (2 ^ 54)) = some sortable ∧
        sortable.Fees = [0]) ∧
      (2 : Nat) ^ 54 * 1024 / 12 ≠ 0 := by
  refine ⟨by decide, by norm_num, rfl, ⟨_, rfl, by decide⟩, by norm_num⟩

/-! ## Claims on Fees and OutputHours -/

theorem feesLoop_error (feeCalc : FeeCalculator) (pre : List Transaction) (t : Transaction)
    (post : List Transaction) (err : GoError)
    (hpre : ∀ u ∈ pre, feeOk feeCalc u = true) (ht : feeCalc t = Except.error err) :
    ∀ total, feesLoop feeCalc (pre ++ t :: post) total = (0, some err) := by
  induction pre with
  | nil => intro total; simp [feesLoop, ht]
  | cons u pre ih =>
    intro total
    have hu := hpre u (List.mem_cons_self _ _)
    unfold feeOk at hu
    cases hf : feeCalc u with
    | error e => simp [hf] at hu
    | ok fee =>
      simp only [List.cons_append, feesLoop, hf]
      exact ih (fun v hv => hpre v (List.mem_cons_of_mem _ hv)) _

theorem feesLoop_ok (feeCalc : FeeCalculator) (txns : List Transaction)
    (hok : ∀ t ∈ txns, feeOk feeCalc t = true) :
    ∀ total, total < 2 ^ 64 →
      feesLoop feeCalc txns total = ((total + (txns.map (feeOf feeCalc)).sum) % 2 ^ 64, none) := by
  induction txns with
  | nil =>
    intro total htotal
    simp only [feesLoop, List.map_nil, List.sum_nil, Nat.add_zero, Nat.mod_eq_of_lt htotal]
  | cons t rest ih =>
    intro total _
    have ht := hok t (List.mem_cons_self _ _)
    unfold feeOk at ht
    cases hf : feeCalc t with
    | error e => simp [hf] at ht
    | ok fee =>
      have hfee : feeOf feeCalc t = fee := by simp [feeOf, hf]
      simp only [feesLoop, hf, List.map_cons, List.sum_cons, hfee]
      rw [ih (fun v hv => hok v (List.mem_cons_of_mem _ hv)) _ (Nat.mod_lt _ (by norm_num))]
      congr 1
      omega

theorem feesLoop_none (feeCalc : FeeCalculator) (txns : List Transaction) :
    ∀ total, (feesLoop feeCalc txns total).2 = none → ∀ t ∈ txns, feeOk feeCalc t = true := by
  induction txns with
  | nil => intro _ _ t ht; cases ht
  | cons u rest ih =>
    intro total h t ht
    cases hf : feeCalc u with
    | error e => simp [feesLoop, hf] at h
    | ok fee =>
      simp only [feesLoop, hf] at h
      rcases List.mem_cons.mp ht with rfl | ht'
      · simp [feeOk, hf]
      · exact ih _ h t ht'

/-- C14: `Fees` returns an error if and only if the fee calculator fails on at least one
transaction; it is then the error of the first failing transaction of the list, and the total
returned with it is 0. -/
theorem Fees_error (txns : Transactions) (feeCalc : FeeCalculator) :
    ((Transactions.Fees txns feeCalc).2 ≠ none ↔ ∃ t ∈ txns, feeOk feeCalc t = false) ∧
      (∀ pre t post err, txns = pre ++ t :: post → (∀ u ∈ pre, feeOk feeCalc u = true) →
        feeCalc t = Except.error err → Transactions.Fees txns feeCalc = (0, some err)) ∧
      ((Transactions.Fees txns feeCalc).2 ≠ none → (Transactions.Fees txns feeCalc).1 = 0) := by
  have hfirst : ∀ pre t post err, txns = pre ++ t :: post →
      (∀ u ∈ pre, feeOk feeCalc u = true) →
      feeCalc t = Except.error err → Transactions.Fees txns feeCalc = (0, some err) := by
    intro pre t post err htx hpre ht
    rw [htx]
    exact feesLoop_error feeCalc pre t post err hpre ht 0
  have hsplit : (∃ t ∈ txns, feeOk feeCalc t = false) →
      ∃ pre t post err, txns = pre ++ t :: post ∧ (∀ u ∈ pre, feeOk feeCalc u = true) ∧
        feeCalc t = Except.error err := by
    intro hex
    induction txns with
    | nil => obtain ⟨t, ht, _⟩ := hex; cases ht
    | cons u rest ih =>
      cases hf : feeCalc u with
      | error e => exact ⟨[], u, rest, e, rfl, fun _ h => absurd h (List.not_mem_nil _), hf⟩
      | ok fee =>
        have hu : feeOk feeCalc u = true := by simp [feeOk, hf]
        obtain ⟨t, ht, hbad⟩ := hex
        have ht' : t ∈ rest := by
          rcases List.mem_cons.mp ht with rfl | h
          · rw [hu] at hbad; cases hbad
          · exact h
        obtain ⟨pre, t', post, err, h1, h2, h3⟩ := ih
          (fun pre t post err htx hpre ht => by
            rw [htx]; exact feesLoop_error feeCalc pre t post err hpre ht 0)
          ⟨t, ht', hbad⟩
        refine ⟨u :: pre, t', post, err, by rw [h1]; rfl, ?_, h3⟩
        intro v hv
        rcases List.mem_cons.mp hv with rfl | hv'
        · exact hu
        · exact h2 v hv'
  have hiff : (Transactions.Fees txns feeCalc).2 ≠ none ↔ ∃ t ∈ txns, feeOk feeCalc t = false := by
    constructor
    · intro h
      by_contra hno
      push_neg at hno
      have hall : ∀ t ∈ txns, feeOk feeCalc t = true := fun t ht => by
        simpa using hno t ht
      have := feesLoop_ok feeCalc txns hall 0 (by norm_num)
      exact h (by unfold Transactions.Fees; rw [this])
    · intro hex
      obtain ⟨pre, t, post, err, h1, h2, h3⟩ := hsplit hex
      rw [hfirst pre t post err h1 h2 h3]
      simp
  refine ⟨hiff, hfirst, ?_⟩
  intro h
  obtain ⟨pre, t, post, err, h1, h2, h3⟩ := hsplit (hiff.mp h)
  rw [hfirst pre t post err h1 h2 h3]

/-- Witness of C14: the third of the four transactions has no fee. -/
theorem Fees_error_witness :
    (Transactions.Fees demoTxns demoFee).2 ≠ none ∧ (Transactions.Fees demoTxns demoFee).1 = 0 :=
  ⟨by decide, (Fees_error demoTxns demoFee).2.2 (by decide)⟩

/-- C15, as the code has it: when the fee calculator succeeds on every transaction, `Fees`
returns without error the sum of the fees modulo 2^64, which is the sum itself whenever the
sum is below 2^64, and 0 for the empty list. -/
theorem Fees_sum (txns : Transactions) (feeCalc : FeeCalculator)
    (hok : ∀ t ∈ txns, feeOk feeCalc t = true) :
    Transactions.Fees txns feeCalc = ((txns.map (feeOf feeCalc)).sum % 2 ^ 64, none) ∧
      ((txns.map (feeOf feeCalc)).sum < 2 ^ 64 →
        Transactions.Fees txns feeCalc = ((txns.map (feeOf feeCalc)).sum, none)) ∧
      Transactions.Fees [] feeCalc = (0, none) := by
  have h := feesLoop_ok feeCalc txns hok 0 (by norm_num)
  rw [Nat.zero_add] at h
  refine ⟨h, ?_, rfl⟩
  intro hlt
  unfold Transactions.Fees
  rw [h, Nat.mod_eq_of_lt hlt]

/-- Witness of C15 as amended: three transactions with the fees 10, 30 and 30. -/
theorem Fees_sum_witness :
    (∀ t ∈ [demoPay 10 1, demoPay 30 2, demoPay 30 4], feeOk demoFee t = true) ∧
      Transactions.Fees [demoPay 10 1, demoPay 30 2, demoPay 30 4] demoFee = (70, none) :=
  ⟨by decide, by
    have h := (Fees_sum [demoPay 10 1, demoPay 30 2, demoPay 30 4] demoFee (by decide)).1
    rw [h]; decide⟩

/-- C15 as stated fails: with two transactions of fee 2^63 each the fee calculator succeeds
on both, the sum of the fees is 2^64, and `Fees` returns 0 without error. -/
theorem Fees_sum_overflow :
    (∀ t ∈ [demoTxn, demoTxn], feeOk (constFee (2 ^ 63)) t = true) ∧
      ([demoTxn, demoTxn].map (feeOf (constFee (2 ^ 63)))).sum = 2 ^ 64 ∧
      Transactions.Fees [demoTxn, demoTxn] (constFee (2 ^ 63)) = (0, none) := by
  refine ⟨by decide, by decide, by decide⟩

theorem foldl_hours (outs : List TransactionOutput) :
    ∀ hours, hours < 2 ^ 64 →
      outs.foldl (fun hours txo => (hours + txo.Hours) % 2 ^ 64) hours
        = (hours + (outs.map (fun o => o.Hours)).sum) % 2 ^ 64 := by
  induction outs with
  | nil =>
    intro hours h
    simp only [List.foldl_nil, List.map_nil, List.sum_nil, Nat.add_zero, Nat.mod_eq_of_lt h]
  | cons o rest ih =>
    intro hours _
    simp only [List.foldl_cons, List.map_cons, List.sum_cons]
    rw [ih _ (Nat.mod_lt _ (by norm_num))]
    omega

/-- C19, as the code has it: `OutputHours` returns the sum of the hours of all outputs modulo
2^64: the exact sum whenever it fits in 64 bits, and the wrapped value otherwise. -/
theorem OutputHours_wraps (t : Transaction) :
    t.OutputHours = (t.Out.map (fun o => o.Hours)).sum % 2 ^ 64 ∧
      ((t.Out.map (fun o => o.Hours)).sum < 2 ^ 64 →
        t.OutputHours = (t.Out.map (fun o => o.Hours)).sum) := by
  have h := foldl_hours t.Out 0 (by norm_num)
  rw [Nat.zero_add] at h
  refine ⟨h, fun hlt => ?_⟩
  unfold Transaction.OutputHours
  rw [h, Nat.mod_eq_of_lt hlt]

/-- Witness of C19 as amended: the hours of the one output of the accepted transaction. -/
theorem OutputHours_wraps_witness :
    (demoTxn.Out.map (fun o => o.Hours)).sum < 2 ^ 64 ∧ demoTxn.OutputHours = 5 :=
  ⟨by decide, by rw [(OutputHours_wraps demoTxn).2 (by decide)]; decide⟩

/-- C19 as stated fails: for two outputs of 2^63 hours each the sum 2^64 exceeds 2^64 - 1 and
`OutputHours` returns 0, the sum modulo 2^64. -/
theorem OutputHours_overflow :
    (bigHoursTxn.Out.map (fun o => o.Hours)).sum = 2 ^ 64 ∧
      (∀ o ∈ bigHoursTxn.Out, o.Hours < 2 ^ 64) ∧
      bigHoursTxn.OutputHours = 0 ∧
      bigHoursTxn.OutputHours = (bigHoursTxn.Out.map (fun o => o.Hours)).sum % 2 ^ 64 := by
  refine ⟨by decide, by decide, by decide, by decide⟩

/-! ## Claims on TruncateBytesTo -/

theorem Size_cons (env : Env) (t : Transaction) (rest : List Transaction) :
    Transactions.Size env (t :: rest) = (t.Size env : Int) + Transactions.Size env rest := by
  have h : ∀ (l : List Transaction) (a : Int),
      l.foldl (fun size txn => size + (txn.Size env : Int)) a
        = a + l.foldl (fun size txn => size + (txn.Size env : Int)) 0 := by
    intro l
    induction l with
    | nil => intro a; simp
    | cons u l ih =>
      intro a
      simp only [List.foldl_cons]
      rw [ih (a + _), ih (0 + _)]
      omega
  unfold Transactions.Size
  rw [List.foldl_cons, h]
  omega

theorem Size_nonneg (env : Env) (l : List Transaction) : 0 ≤ Transactions.Size env l := by
  induction l with
  | nil => simp [Transactions.Size]
  | cons t rest ih => rw [Size_cons]; omega

theorem truncateLoop_prefixWithin (env : Env) (size : Int) (l : List Transaction) :
    ∀ (pre : List Transaction) (total : Int),
      (match truncateLoop env size l total pre.length with
        | some i => (pre ++ l).take i
        | none => pre ++ l) = pre ++ prefixWithin env size total l := by
  induction l with
  | nil => intro pre total; simp [truncateLoop, prefixWithin]
  | cons t rest ih =>
    intro pre total
    by_cases hcut : total + (t.Size env : Int) > size
    · simp [truncateLoop, prefixWithin, hcut]
    · have h := ih (pre ++ [t]) (total + (t.Size env : Int))
      simp only [List.length_append, List.length_singleton, List.append_assoc,
        List.singleton_append] at h
      simp only [truncateLoop, prefixWithin, hcut, if_false]
      exact h

theorem TruncateBytesTo_eq (env : Env) (txns : Transactions) (size : Int) :
    Transactions.TruncateBytesTo env txns size = prefixWithin env size 0 txns := by
  have h := truncateLoop_prefixWithin env size txns [] 0
  simpa [Transactions.TruncateBytesTo] using h

theorem prefixWithin_initial (env : Env) (budget : Int) (l : List Transaction) :
    ∀ total, prefixWithin env budget total l <+: l := by
  induction l with
  | nil => intro total; simp [prefixWithin]
  | cons t rest ih =>
    intro total
    unfold prefixWithin
    split_ifs
    · exact List.nil_prefix
    · exact (List.prefix_cons_inj t).mpr (ih _)

theorem prefixWithin_fits (env : Env) (budget : Int) (l : List Transaction) :
    ∀ total, total ≤ budget →
      total + Transactions.Size env (prefixWithin env budget total l) ≤ budget := by
  induction l with
  | nil => intro total h; simp [prefixWithin, Transactions.Size, h]
  | cons t rest ih =>
    intro total h
    unfold prefixWithin
    split_ifs with hcut
    · simp [Transactions.Size, h]
    · rw [Size_cons]
      have := ih (total + (t.Size env : Int)) (by omega)
      omega

theorem prefixWithin_longest (env : Env) (budget : Int) (l : List Transaction) :
    ∀ (total : Int) (p : List Transaction), p <+: l →
      total + Transactions.Size env p ≤ budget →
      p.length ≤ (prefixWithin env budget total l).length := by
  induction l with
  | nil =>
    intro total p hp _
    rw [List.prefix_nil.mp hp]
    simp
  | cons t rest ih =>
    intro total p hp hfit
    cases p with
    | nil => simp
    | cons u p' =>
      obtain ⟨hut, hp'⟩ := List.cons_prefix_cons.mp hp
      subst hut
      rw [Size_cons] at hfit
      have hnn := Size_nonneg env p'
      have hcut : ¬ total + (u.Size env : Int) > budget := by omega
      simp only [prefixWithin, hcut, if_false, List.length_cons]
      have := ih (total + (u.Size env : Int)) p' hp' (by omega)
      omega

theorem prefixWithin_cut (env : Env) (budget : Int) (l : List Transaction) :
    ∀ total, prefixWithin env budget total l ≠ l →
      ∃ t, l[(prefixWithin env budget total l).length]? = some t ∧
        total + Transactions.Size env (prefixWithin env budget total l) + (t.Size env : Int)
          > budget := by
  induction l with
  | nil => intro total h; exact absurd rfl h
  | cons t rest ih =>
    intro total h
    by_cases hcut : total + (t.Size env : Int) > budget
    · refine ⟨t, ?_, ?_⟩
      · simp [prefixWithin, hcut]
      · simp only [prefixWithin, hcut, if_true]
        simp only [Transactions.Size, List.foldl_nil]
        omega
    · simp only [prefixWithin, hcut, if_false] at h ⊢
      have hne : prefixWithin env budget (total + (t.Size env : Int)) rest ≠ rest :=
        fun he => h (by rw [he])
      obtain ⟨u, hu1, hu2⟩ := ih _ hne
      refine ⟨u, by simpa using hu1, ?_⟩
      rw [Size_cons]
      omega

theorem prefixWithin_all (env : Env) (budget : Int) (l : List Transaction) :
    ∀ total, total + Transactions.Size env l ≤ budget → prefixWithin env budget total l = l := by
  induction l with
  | nil => intro total _; rfl
  | cons t rest ih =>
    intro total h
    rw [Size_cons] at h
    have hnn := Size_nonneg env rest
    have hcut : ¬ total + (t.Size env : Int) > budget := by omega
    simp only [prefixWithin, hcut, if_false]
    rw [ih _ (by omega)]

/-- C13: for a budget that is not negative, `TruncateBytesTo` returns the longest prefix of
the list whose summed encoded size is within the budget: it is a prefix, it fits, no prefix
that fits is longer, when it is not the whole list the next transaction would push the total
over the budget, and it is the whole list when the total fits; three transactions of sizes
100, 150 and 80 with the budget 200 yield only the first. -/
theorem TruncateBytesTo_longest (env : Env) (txns : Transactions) (size : Int)
    (hsize : 0 ≤ size) :
    Transactions.TruncateBytesTo env txns size <+: txns ∧
      Transactions.Size env (Transactions.TruncateBytesTo env txns size) ≤ size ∧
      (∀ p : Transactions, p <+: txns → Transactions.Size env p ≤ size →
        p.length ≤ (Transactions.TruncateBytesTo env txns size).length) ∧
      (Transactions.TruncateBytesTo env txns size ≠ txns →
        ∃ t, txns[(Transactions.TruncateBytesTo env txns size).length]? = some t ∧
          Transactions.Size env (Transactions.TruncateBytesTo env txns size) + (t.Size env : Int)
            > size) ∧
      (Transactions.Size env txns ≤ size → Transactions.TruncateBytesTo env txns size = txns) ∧
      (∀ a b c : Transaction, a.Size env = 100 → b.Size env = 150 → c.Size env = 80 →
        Transactions.TruncateBytesTo env [a, b, c] 200 = [a]) := by
  rw [TruncateBytesTo_eq]
  refine ⟨prefixWithin_initial env size txns 0, ?_, ?_, ?_, ?_, ?_⟩
  · have := prefixWithin_fits env size txns 0 hsize
    omega
  · intro p hp hfit
    exact prefixWithin_longest env size txns 0 p hp (by omega)
  · intro hne
    obtain ⟨t, h1, h2⟩ := prefixWithin_cut env size txns 0 hne
    exact ⟨t, h1, by omega⟩
  · intro hfit
    exact prefixWithin_all env size txns 0 (by omega)
  · intro a b c ha hb hc
    rw [TruncateBytesTo_eq]
    simp [prefixWithin, ha, hb]

/-- Witness of C13: transactions of sizes 100, 150 and 80 under the budget 200. -/
theorem TruncateBytesTo_longest_witness :
    (0 : Int) ≤ 200 ∧
      (demoPay 100 1).Size padEnv = 100 ∧ (demoPay 150 2).Size padEnv = 150 ∧
      (demoPay 80 3).Size padEnv = 80 ∧
      Transactions.TruncateBytesTo padEnv [demoPay 100 1, demoPay 150 2, demoPay 80 3] 200
        = [demoPay 100 1] :=
  ⟨by decide, by decide, by decide, by decide,
    (TruncateBytesTo_longest padEnv [demoPay 100 1, demoPay 150 2, demoPay 80 3] 200
      (by decide)).2.2.2.2.2 _ _ _ (by decide) (by decide) (by decide)⟩

/-! ## Claims on SignInputs and PushInput -/

theorem signLoop_eq (env : Env) (h : SHA256) (keys : List SecKey) :
    ∀ (done : List Sig) (room : Nat), keys.length ≤ room →
      signLoop env h keys done.length (done ++ List.replicate room [])
        = some (done ++ keys.map (env.SignHash h) ++ List.replicate (room - keys.length) []) := by
  induction keys with
  | nil => intro done room _; simp [signLoop]
  | cons k rest ih =>
    intro done room hroom
    simp only [List.length_cons] at hroom
    obtain ⟨room', rfl⟩ : ∃ room', room = room' + 1 := ⟨room - 1, by omega⟩
    have hlt : done.length < (done ++ List.replicate (room' + 1) ([] : Sig)).length := by
      simp
    have step := ih (done ++ [env.SignHash h k]) room' (by omega)
    simp only [List.length_append, List.length_singleton] at step
    simp only [signLoop, hlt, if_true, List.replicate_succ]
    rw [set_at_length _ _ _ _ _ rfl]
    have e : done ++ env.SignHash h k :: List.replicate room' ([] : Sig)
        = done ++ [env.SignHash h k] ++ List.replicate room' [] := by simp
    rw [e, step]
    simp

/-- The result of `SignInputs` when none of its four guards fires. -/
theorem SignInputs_eq (env : Env) (t : Transaction) (keys : List SecKey)
    (h1 : t.Head.Sigs.length = 0) (h2 : keys.length = t.In.length)
    (h3 : ¬ keys.length > MaxUint16) (h4 : keys.length ≠ 0) :
    t.SignInputs env keys
      = some { t with
          Head := { t.Head with Sigs := keys.map (env.SignHash (t.hashInner env)) } } := by
  have hloop := signLoop_eq env (t.hashInner env) keys [] t.In.length (by omega)
  simp only [List.length_nil, List.nil_append] at hloop
  rw [← h2, Nat.sub_self] at hloop
  simp only [List.replicate_zero, List.append_nil] at hloop
  unfold Transaction.SignInputs
  rw [if_neg (by omega), if_neg (by omega), if_neg h3, if_neg h4]
  simp only [← h2, hloop]

/-- C16: `SignInputs` panics if and only if the transaction already has a signature, or the
number of keys differs from the number of inputs, or there is no key, or there are 2^16 keys
or more; in every other case it succeeds, leaves as many signatures as there are inputs, and
leaves the inputs, the outputs and the header hash as they were. -/
theorem SignInputs_panics_iff (env : Env) (t : Transaction) (keys : List SecKey) :
    (t.SignInputs env keys = none ↔
        (t.Head.Sigs.length ≥ 1 ∨ keys.length ≠ t.In.length ∨ keys.length = 0 ∨
          keys.length ≥ 2 ^ 16)) ∧
      (∀ signed, t.SignInputs env keys = some signed →
        signed.Head.Sigs.length = t.In.length ∧ signed.In = t.In ∧ signed.Out = t.Out ∧
          signed.Head.Hash = t.Head.Hash) := by
  by_cases hbad : t.Head.Sigs.length ≥ 1 ∨ keys.length ≠ t.In.length ∨ keys.length = 0 ∨
      keys.length ≥ 2 ^ 16
  · have hnone : t.SignInputs env keys = none := by
      unfold Transaction.SignInputs MaxUint16
      split_ifs with c1 c2 c3 c4
      · rfl
      · rfl
      · rfl
      · rfl
      · exfalso
        rcases hbad with h | h | h | h <;> omega
    refine ⟨⟨fun _ => hbad, fun _ => hnone⟩, ?_⟩
    intro signed hs
    rw [hnone] at hs
    cases hs
  · have h1 : t.Head.Sigs.length = 0 := by omega
    have h2 : keys.length = t.In.length := by omega
    have h3 : ¬ keys.length > MaxUint16 := by unfold MaxUint16; omega
    have h4 : keys.length ≠ 0 := by omega
    have hsome := SignInputs_eq env t keys h1 h2 h3 h4
    have hne : t.SignInputs env keys ≠ none := by rw [hsome]; exact Option.some_ne_none _
    refine ⟨⟨fun h => absurd h hne, fun h => absurd h hbad⟩, ?_⟩
    intro signed hs
    rw [hsome] at hs
    cases hs
    simp [h2]

/-- Witness of C16: signing the unsigned one-input transaction with one key. -/
theorem SignInputs_panics_iff_witness :
    staleTxn.SignInputs demoEnv [[7]] = some { staleTxn with
        Head := { Hash := [], Sigs := [[150, 7]] } } ∧
      ({ staleTxn with Head := { Hash := [], Sigs := [[150, 7]] } } : Transaction).Head.Sigs.length
        = staleTxn.In.length :=
  ⟨by decide, ((SignInputs_panics_iff demoEnv staleTxn [[7]]).2 _ (by decide)).1⟩

/-- C17, as the code has it: when `SignInputs` succeeds, every signature signs the inner hash
that `SignInputs` recomputes from the inputs and outputs: the signature at position `i` is
`SignHash(hashInner(), keys[i])`; it is `SignHash(Head.Hash, keys[i])` when the stored header
hash is that inner hash. -/
theorem SignInputs_signs_inner_hash (env : Env) (t : Transaction) (keys : List SecKey)
    (signed : Transaction) (h : t.SignInputs env keys = some signed) :
    signed.Head.Sigs = keys.map (env.SignHash (t.hashInner env)) ∧
      (∀ i (hi : i < keys.length),
        signed.Head.Sigs[i]? = some (env.SignHash (t.hashInner env) (keys.get ⟨i, hi⟩))) ∧
      (t.Head.Hash = t.hashInner env → ∀ i (hi : i < keys.length),
        signed.Head.Sigs[i]? = some (env.SignHash t.Head.Hash (keys.get ⟨i, hi⟩))) := by
  have hgood : ¬ (t.Head.Sigs.length ≥ 1 ∨ keys.length ≠ t.In.length ∨ keys.length = 0 ∨
      keys.length > MaxUint16) := by
    intro hbad
    have hnone : t.SignInputs env keys = none := by
      unfold Transaction.SignInputs
      split_ifs with c1 c2 c3 c4
      · rfl
      · rfl
      · rfl
      · rfl
      · exfalso
        rcases hbad with h | h | h | h <;> omega
    rw [hnone] at h
    cases h
  have hsome := SignInputs_eq env t keys (by omega) (by omega) (by omega) (by omega)
  rw [hsome] at h
  cases h
  have hidx : ∀ i (hi : i < keys.length),
      (keys.map (env.SignHash (t.hashInner env)))[i]?
        = some (env.SignHash (t.hashInner env) (keys.get ⟨i, hi⟩)) := by
    intro i hi
    rw [List.getElem?_map, List.getElem?_eq_getElem hi]
    rfl
  refine ⟨rfl, hidx, ?_⟩
  intro hhash i hi
  rw [hhash]
  exact hidx i hi

/-- Witness of C17 as amended: the key `[7]` signs the inner hash `[150]`. -/
theorem SignInputs_signs_inner_hash_witness :
    staleTxn.SignInputs demoEnv [[7]] = some { staleTxn with
        Head := { Hash := [], Sigs := [[150, 7]] } } ∧
      ({ staleTxn with Head := { Hash := [], Sigs := [[150, 7]] } } : Transaction).Head.Sigs
        = [[7]].map (demoEnv.SignHash (staleTxn.hashInner demoEnv)) :=
  ⟨by decide, (SignInputs_signs_inner_hash demoEnv staleTxn [[7]] _ (by decide)).1⟩

/-- C17 as stated fails: on a transaction whose stored header hash is not its inner hash,
`SignInputs` succeeds and the signature differs from `SignHash(Head.Hash, keys[0])`. -/
theorem SignInputs_stale_header :
    staleTxn.Head.Hash ≠ staleTxn.hashInner demoEnv ∧
      ∃ signed, staleTxn.SignInputs demoEnv [[7]] = some signed ∧
        signed.Head.Sigs[0]? = some [150, 7] ∧
        demoEnv.SignHash staleTxn.Head.Hash [7] = [7] ∧
        signed.Head.Sigs[0]? ≠ some (demoEnv.SignHash staleTxn.Head.Hash [7]) := by
  refine ⟨by decide, _, rfl, by decide, by decide, by decide⟩

/-- C18, as the code has it: `PushInput` panics if and only if the transaction already holds
at least 65,535 inputs, that is `math.MaxUint16`; with fewer it succeeds and appends the
input. -/
theorem PushInput_panics_iff (t : Transaction) (uxOut : SHA256) :
    (t.PushInput uxOut = none ↔ t.In.length ≥ 65535) ∧
      (t.In.length < 65535 →
        ∃ index, t.PushInput uxOut = some ({ t with In := t.In ++ [uxOut] }, index)) := by
  unfold Transaction.PushInput MaxUint16
  by_cases h : t.In.length ≥ 65535
  · simp [h]
  · refine ⟨by simp [h], fun _ => ⟨(t.In.length + 1 - 1) % 2 ^ 16, by simp [h]⟩⟩

/-- Witness of C18 as amended: pushing a second input. -/
theorem PushInput_panics_iff_witness :
    demoTxn.In.length < 65535 ∧
      ∃ index, demoTxn.PushInput [4] = some ({ demoTxn with In := demoTxn.In ++ [[4]] }, index) :=
  ⟨by decide, (PushInput_panics_iff demoTxn [4]).2 (by decide)⟩

/-- C18 as stated fails: a transaction with 65,535 inputs has fewer than 2^16 inputs, and
`PushInput` panics on it. -/
theorem PushInput_panics_at_65535 :
    maxSigsTxn.In.length = 65535 ∧ maxSigsTxn.In.length < 2 ^ 16 ∧
      maxSigsTxn.PushInput [] = none := by
  have hi : maxSigsTxn.In.length = 65535 := by
    simp only [maxSigsTxn, List.length_map, List.length_range]
  refine ⟨hi, by rw [hi]; norm_num, ?_⟩
  unfold Transaction.PushInput MaxUint16
  rw [if_pos (by rw [hi])]

/-! ## Lemmas on the order of the specification -/

theorem mayPrecede_iff (env : Env) (feeCalc : FeeCalculator) (a b : Transaction) :
    mayPrecede env feeCalc a b ↔
      feeDensity env feeCalc a > feeDensity env feeCalc b ∨
        (feeDensity env feeCalc a = feeDensity env feeCalc b ∧ a.Hash env ≤ b.Hash env) := by
  unfold mayPrecede
  rw [lex_iff_lt, ← le_iff_eq_or_lt]

theorem mayPrecede_trans (env : Env) (feeCalc : FeeCalculator) {a b c : Transaction}
    (hab : mayPrecede env feeCalc a b) (hbc : mayPrecede env feeCalc b c) :
    mayPrecede env feeCalc a c := by
  rw [mayPrecede_iff] at *
  rcases hab with h | ⟨h1, h2⟩ <;> rcases hbc with h' | ⟨h1', h2'⟩
  · left; omega
  · left; omega
  · left; omega
  · right; exact ⟨h1.trans h1', le_trans h2 h2'⟩

theorem mayPrecede_density (env : Env) (feeCalc : FeeCalculator) {a b : Transaction}
    (hab : mayPrecede env feeCalc a b) :
    feeDensity env feeCalc b ≤ feeDensity env feeCalc a := by
  rw [mayPrecede_iff] at hab
  rcases hab with h | ⟨h, _⟩ <;> omega

theorem mayPrecede_antisymm (env : Env) (feeCalc : FeeCalculator) {a b : Transaction}
    (hab : mayPrecede env feeCalc a b) (hba : mayPrecede env feeCalc b a) :
    a.Hash env = b.Hash env := by
  have h1 := mayPrecede_density env feeCalc hab
  have h2 := mayPrecede_density env feeCalc hba
  rw [mayPrecede_iff] at hab hba
  rcases hab with h | ⟨_, h⟩
  · omega
  · rcases hba with h' | ⟨_, h'⟩
    · omega
    · exact le_antisymm h h'

/-- Two arrangements of the same elements, both ordered by a relation that is antisymmetric
on these elements, are the same list. -/
theorem perm_pairwise_unique {α : Type} (r : α → α → Prop) :
    ∀ (l₁ l₂ : List α), l₁.Perm l₂ → l₁.Pairwise r → l₂.Pairwise r →
      (∀ a ∈ l₁, ∀ b ∈ l₁, r a b → r b a → a = b) → l₁ = l₂ := by
  intro l₁
  induction l₁ with
  | nil => intro l₂ hp _ _ _; exact (List.nil_perm.mp hp).symm
  | cons a rest ih =>
    intro l₂ hp h1 h2 hanti
    cases l₂ with
    | nil => exact absurd hp.symm (List.nil_perm.not.mpr (List.cons_ne_nil _ _))
    | cons b rest₂ =>
      have hab : a = b := by
        have ha : a ∈ b :: rest₂ := hp.mem_iff.mp (List.mem_cons_self _ _)
        have hb : b ∈ a :: rest := hp.mem_iff.mpr (List.mem_cons_self _ _)
        rcases List.mem_cons.mp ha with h | h
        · exact h
        · rcases List.mem_cons.mp hb with h' | h'
          · exact h'.symm
          · exact hanti a (List.mem_cons_self _ _) b hb ((List.pairwise_cons.mp h1).1 b h')
              ((List.pairwise_cons.mp h2).1 a h)
      subst hab
      have hrest := ih rest₂ (List.Perm.cons_inv hp) (List.pairwise_cons.mp h1).2
        (List.pairwise_cons.mp h2).2
        (fun x hx y hy => hanti x (List.mem_cons_of_mem _ hx) y (List.mem_cons_of_mem _ hy))
      rw [hrest]

/-- The output of `SortTransactions`: a rearrangement of the transactions with a fee in which
every transaction may precede all the later ones. -/
theorem SortTransactions_pairwise (env : Env) (txns : Transactions) (feeCalc : FeeCalculator)
    (hsize : ∀ t ∈ txns, 0 < t.Size env) :
    ∃ out, SortTransactions env txns feeCalc = some out ∧
      out.Perm (txns.filter (feeOk feeCalc)) ∧ out.Pairwise (mayPrecede env feeCalc) := by
  obtain ⟨es, hrun, hperm, hsorted⟩ := sortedTransactions_entries env txns feeCalc hsize
  refine ⟨es.map (fun e => e.1), by simp [SortTransactions, hrun, ofEntries], ?_, ?_⟩
  · rw [← entriesOf_txns env feeCalc txns]
    exact hperm.map _
  · have hal : ∀ e ∈ es, Aligned env feeCalc e := fun e he =>
      entriesOf_aligned env feeCalc txns e (hperm.mem_iff.mp he)
    rw [List.pairwise_map]
    exact hsorted.imp_of_mem (fun {a b} ha hb hab =>
      mayPrecede_of_notAfter env feeCalc a b (hal a ha) (hal b hb) hab)

/-! ## Claims on the determinism of the order -/

/-- C11: for two transaction lists that are permutations of each other, whose transactions
have pairwise distinct identity hashes, `SortTransactions` returns the same sequence; and
every arrangement of the transactions with a fee that is ordered by the comparator is that
sequence, whichever way it was sorted.  The fee calculator is a function of the transaction,
and the encoded size of every transaction is taken to be positive. -/
theorem SortTransactions_deterministic (env : Env) (feeCalc : FeeCalculator)
    (l₁ l₂ : Transactions) (hperm : l₁.Perm l₂)
    (hdistinct : (l₁.map (fun t => t.Hash env)).Nodup)
    (hsize : ∀ t ∈ l₁, 0 < t.Size env) :
    ∃ out, SortTransactions env l₁ feeCalc = some out ∧
      SortTransactions env l₂ feeCalc = some out ∧
      ∀ other : Transactions, other.Perm (l₁.filter (feeOk feeCalc)) →
        List.Chain' (mayPrecede env feeCalc) other → other = out := by
  have hsize₂ : ∀ t ∈ l₂, 0 < t.Size env := fun t ht => hsize t (hperm.mem_iff.mpr ht)
  obtain ⟨out₁, hrun₁, hp₁, hs₁⟩ := SortTransactions_pairwise env l₁ feeCalc hsize
  obtain ⟨out₂, hrun₂, hp₂, hs₂⟩ := SortTransactions_pairwise env l₂ feeCalc hsize₂
  have hinj : ∀ a ∈ l₁, ∀ b ∈ l₁, a.Hash env = b.Hash env → a = b :=
    fun a ha b hb hab => List.inj_on_of_nodup_map hdistinct ha hb hab
  have hunique : ∀ other : Transactions, other.Perm (l₁.filter (feeOk feeCalc)) →
      other.Pairwise (mayPrecede env feeCalc) → other = out₁ := by
    intro other hpo hso
    have hmem : ∀ a ∈ other, a ∈ l₁ := fun a ha =>
      (List.mem_filter.mp (hpo.mem_iff.mp ha)).1
    exact perm_pairwise_unique (mayPrecede env feeCalc) other out₁ (hpo.trans hp₁.symm) hso hs₁
      (fun a ha b hb hab hba =>
        hinj a (hmem a ha) b (hmem b hb) (mayPrecede_antisymm env feeCalc hab hba))
  have h21 : out₂ = out₁ :=
    hunique out₂ (hp₂.trans (hperm.symm.filter _)) hs₂
  refine ⟨out₁, hrun₁, by rw [hrun₂, h21], ?_⟩
  intro other hpo hchain
  haveI : IsTrans Transaction (mayPrecede env feeCalc) :=
    ⟨fun _ _ _ hab hbc => mayPrecede_trans env feeCalc hab hbc⟩
  exact hunique other hpo (List.chain'_iff_pairwise.mp hchain)

/-- Witness of C11: the four transactions of the demonstration and their reversal. -/
theorem SortTransactions_deterministic_witness :
    demoTxns.Perm demoTxns.reverse ∧ (demoTxns.map (fun t => t.Hash demoEnv)).Nodup ∧
      ∃ out, SortTransactions demoEnv demoTxns demoFee = some out ∧
        SortTransactions demoEnv demoTxns.reverse demoFee = some out ∧
        ∀ other : Transactions, other.Perm (demoTxns.filter (feeOk demoFee)) →
          List.Chain' (mayPrecede demoEnv demoFee) other → other = out :=
  ⟨(List.reverse_perm demoTxns).symm, by decide,
    SortTransactions_deterministic demoEnv demoFee demoTxns demoTxns.reverse
      (List.reverse_perm demoTxns).symm (by decide) (by decide)⟩

/-! ## Claims on sorting twice -/

theorem Less_eq_entryLess (s : SortableTransactions) (i j : Nat) (fi fj : Nat) (hi hj : SHA256)
    (h1 : s.Fees[i]? = some fi) (h2 : s.Fees[j]? = some fj)
    (h3 : s.Hashes[i]? = some hi) (h4 : s.Hashes[j]? = some hj) (t u : Transaction) :
    s.Less i j = some (entryLess (t, fi, hi) (u, fj, hj)) := by
  unfold SortableTransactions.Less entryLess
  simp only [h1, h2, h3, h4]
  by_cases h : fi = fj <;> simp [h]

/-- C21: on positions of a `SortableTransactions` whose slices have the same length, `Less`
is a strict total order up to equal hashes: `Less(i, i)` is false, `Less(i, j)` and
`Less(j, k)` imply `Less(i, k)`, and when the hashes at `i` and `j` differ exactly one of
`Less(i, j)` and `Less(j, i)` is true. -/
theorem Less_strict_total (s : SortableTransactions) (i j k : Nat)
    (hF : s.Fees.length = s.Len) (hH : s.Hashes.length = s.Len)
    (hi : i < s.Len) (hj : j < s.Len) (hk : k < s.Len) :
    s.Less i i = some false ∧
      (s.Less i j = some true → s.Less j k = some true → s.Less i k = some true) ∧
      (s.Hashes[i]? ≠ s.Hashes[j]? →
        (s.Less i j = some true ∧ s.Less j i = some false) ∨
          (s.Less i j = some false ∧ s.Less j i = some true)) := by
  have fI : s.Fees[i]? = some (s.Fees.get ⟨i, by omega⟩) := List.getElem?_eq_getElem _
  have fJ : s.Fees[j]? = some (s.Fees.get ⟨j, by omega⟩) := List.getElem?_eq_getElem _
  have fK : s.Fees[k]? = some (s.Fees.get ⟨k, by omega⟩) := List.getElem?_eq_getElem _
  have hI : s.Hashes[i]? = some (s.Hashes.get ⟨i, by omega⟩) := List.getElem?_eq_getElem _
  have hJ : s.Hashes[j]? = some (s.Hashes.get ⟨j, by omega⟩) := List.getElem?_eq_getElem _
  have hK : s.Hashes[k]? = some (s.Hashes.get ⟨k, by omega⟩) := List.getElem?_eq_getElem _
  generalize s.Fees.get ⟨i, by omega⟩ = fi at fI
  generalize s.Fees.get ⟨j, by omega⟩ = fj at fJ
  generalize s.Fees.get ⟨k, by omega⟩ = fk at fK
  generalize s.Hashes.get ⟨i, by omega⟩ = hi' at hI
  generalize s.Hashes.get ⟨j, by omega⟩ = hj' at hJ
  generalize s.Hashes.get ⟨k, by omega⟩ = hk' at hK
  have t : Transaction := default
  rw [Less_eq_entryLess s i i fi fi hi' hi' fI fI hI hI t t,
    Less_eq_entryLess s i j fi fj hi' hj' fI fJ hI hJ t t,
    Less_eq_entryLess s j k fj fk hj' hk' fJ fK hJ hK t t,
    Less_eq_entryLess s i k fi fk hi' hk' fI fK hI hK t t,
    Less_eq_entryLess s j i fj fi hj' hi' fJ fI hJ hI t t, hI, hJ]
  simp only [Option.some.injEq, ne_eq, ← Bool.not_eq_true, entryLess_iff]
  refine ⟨?_, ?_, ?_⟩
  · rintro (h | ⟨_, h⟩)
    · omega
    · exact lt_irrefl _ h
  · rintro (h | ⟨h1, h2⟩) (h' | ⟨h1', h2'⟩)
    · left; omega
    · left; omega
    · left; omega
    · right; exact ⟨h1.trans h1', lt_trans h2 h2'⟩
  · intro hne
    rcases Nat.lt_trichotomy fi fj with h | h | h
    · right
      refine ⟨?_, Or.inl h⟩
      rintro (h' | ⟨h', _⟩) <;> omega
    · rcases lt_trichotomy hi' hj' with h' | h' | h'
      · left
        refine ⟨Or.inr ⟨h, h'⟩, ?_⟩
        rintro (h'' | ⟨_, h''⟩)
        · omega
        · exact lt_asymm h' h''
      · exact absurd h' hne
      · right
        refine ⟨?_, Or.inr ⟨h.symm, h'⟩⟩
        rintro (h'' | ⟨_, h''⟩)
        · omega
        · exact lt_asymm h' h''
    · left
      refine ⟨Or.inl h, ?_⟩
      rintro (h' | ⟨h', _⟩) <;> omega

/-- Witness of C21: three positions, the last two with the same fee. -/
theorem Less_strict_total_witness :
    demoSortable.Less 1 1 = some false ∧
      (demoSortable.Less 1 2 = some true → demoSortable.Less 2 0 = some true →
        demoSortable.Less 1 0 = some true) ∧
      demoSortable.Less 1 2 = some true ∧ demoSortable.Less 2 1 = some false :=
  have h := Less_strict_total demoSortable 1 2 0 (by decide) (by decide) (by decide)
    (by decide) (by decide)
  ⟨h.1, h.2.1, by decide, by decide⟩

/-! ## Claims on UpdateHeader and PushInput -/

/-- C22: `UpdateHeader` stores the inner hash of the current inputs and outputs in the header
hash and changes nothing else; afterwards `Verify` does not return "Invalid header hash", and
a second `UpdateHeader` changes nothing. -/
theorem UpdateHeader_frame (env : Env) (t : Transaction) :
    (t.UpdateHeader env).Head.Hash = t.hashInner env ∧
      (t.UpdateHeader env).In = t.In ∧ (t.UpdateHeader env).Out = t.Out ∧
      (t.UpdateHeader env).Head.Sigs = t.Head.Sigs ∧
      (t.UpdateHeader env).Verify env ≠ some (GoError.errorsNew "Invalid header hash") ∧
      (t.UpdateHeader env).UpdateHeader env = t.UpdateHeader env := by
  refine ⟨rfl, rfl, rfl, rfl, ?_, rfl⟩
  have h1 : (t.UpdateHeader env).hashInner env = (t.UpdateHeader env).Head.Hash := rfl
  generalize t.UpdateHeader env = u at h1
  unfold Transaction.Verify
  simp only [ne_eq, h1, not_true_eq_false, if_false]
  have hlast : (match verifySigs env u.Head.Hash u.Head.Sigs with
      | some err => some err
      | none => verifyCoins u.Out) ≠ some (GoError.errorsNew "Invalid header hash") := by
    cases hs : verifySigs env u.Head.Hash u.Head.Sigs with
    | some err =>
      intro h
      have h' : verifySigs env u.Head.Hash u.Head.Sigs
          = some (GoError.errorsNew "Invalid header hash") := by
        rw [hs]; simpa using h
      exact verifySigs_ne_errorsNew env _ _ _ h'
    | none =>
      rcases verifyCoins_cases u.Out with h | h | h <;> simp [h]
  split_ifs
  all_goals first
    | exact hlast
    | (intro h; simp at h)

/-- C23: when `PushInput` succeeds, the new input list is the old one with the given hash
appended at its end, the index returned is the old number of inputs, not truncated, so that
the input at that index is the hash pushed, and the outputs and the header are unchanged. -/
theorem PushInput_frame (t : Transaction) (uxOut : SHA256) (pushed : Transaction) (index : Nat)
    (h : t.PushInput uxOut = some (pushed, index)) :
    pushed.In = t.In ++ [uxOut] ∧ index = t.In.length ∧ index < 2 ^ 16 ∧
      pushed.In[index]? = some uxOut ∧ pushed.Out = t.Out ∧ pushed.Head = t.Head := by
  unfold Transaction.PushInput MaxUint16 at h
  by_cases hfull : t.In.length ≥ 65535
  · simp [hfull] at h
  · simp only [hfull, if_false, Option.some.injEq, Prod.mk.injEq] at h
    obtain ⟨hp, hidx⟩ := h
    subst hp
    have hlen : index = t.In.length := by
      rw [← hidx]
      simp only [List.length_append, List.length_singleton, Nat.add_sub_cancel]
      exact Nat.mod_eq_of_lt (by omega)
    refine ⟨rfl, hlen, by omega, ?_, rfl, rfl⟩
    rw [hlen]
    simp

/-- Witness of C23: a second input is pushed and gets the index 1. -/
theorem PushInput_frame_witness :
    demoTxn.PushInput [4] = some ({ demoTxn with In := [[1, 2, 3], [4]] }, 1) ∧
      (1 : Nat) = demoTxn.In.length :=
  ⟨by decide,
    (PushInput_frame demoTxn [4] { demoTxn with In := [[1, 2, 3], [4]] } 1 (by decide)).2.1⟩

/-! ## Claims on the simple wallet -/

theorem mapLookup_none_iff {κ ν : Type} [DecidableEq κ] (m : List (κ × ν)) (k : κ) :
    mapLookup m k = none ↔ m.any (fun p => decide (p.1 = k)) = false := by
  unfold mapLookup
  cases hf : m.find? (fun p => decide (p.1 = k)) with
  | none =>
    simp only [true_iff]
    rw [List.find?_eq_none] at hf
    rw [List.any_eq_false]
    exact hf
  | some p =>
    simp only [false_iff, reduceCtorEq]
    have hp := List.find?_some hf
    have hm := List.mem_of_find?_eq_some hf
    intro hany
    rw [List.any_eq_false] at hany
    exact hany p hm hp

theorem mapLookup_append_new {κ ν : Type} [DecidableEq κ] (m : List (κ × ν)) (k : κ) (v : ν)
    (h : mapLookup m k = none) :
    mapLookup (m ++ [(k, v)]) k = some v ∧
      ∀ a, a ≠ k → mapLookup (m ++ [(k, v)]) a = mapLookup m a := by
  constructor
  · unfold mapLookup at h ⊢
    cases hf : m.find? (fun p => decide (p.1 = k)) with
    | some p => simp [hf] at h
    | none => simp [List.find?_append, hf]
  · intro a ha
    unfold mapLookup
    cases hf : m.find? (fun p => decide (p.1 = a)) with
    | some p => simp [List.find?_append, hf]
    | none =>
      have hka : ¬ k = a := fun e => ha e.symm
      simp [List.find?_append, hf, hka]

/-- C24, as the code has it: `AddEntry` returns an error and leaves the wallet as it was when
the entry fails its own `Verify` or its address is already in the wallet; otherwise, when the
map of entries is allocated, it returns nil, `GetEntry` of the address then returns the entry,
`NumEntries` has grown by exactly one, every other entry is as before, and so are the other
fields of the wallet; and when the map of entries is nil it panics on a valid entry. -/
theorem AddEntry_behaviour (entryVerify : WalletEntry → Option GoError)
    (addressString : Address → String) (w : SimpleWallet) (e : WalletEntry) :
    ((entryVerify e ≠ none ∨ (w.GetEntry e.Address).2 = true) →
        ∃ err, w.AddEntry entryVerify addressString e = some (w, some err)) ∧
      (entryVerify e = none → (w.GetEntry e.Address).2 = false → w.Entries ≠ none →
        ∃ added, w.AddEntry entryVerify addressString e = some (added, none) ∧
          added.GetEntry e.Address = (e, true) ∧
          added.NumEntries = w.NumEntries + 1 ∧
          (∀ a, a ≠ e.Address → added.GetEntry a = w.GetEntry a) ∧
          added.ID = w.ID ∧ added.Name = w.Name ∧ added.Filename = w.Filename) ∧
      (entryVerify e = none → w.Entries = none →
        w.AddEntry entryVerify addressString e = none) := by
  refine ⟨?_, ?_, ?_⟩
  · intro hbad
    unfold SimpleWallet.AddEntry
    cases hv : entryVerify e with
    | some err => exact ⟨err, rfl⟩
    | none =>
      have hex : (w.GetEntry e.Address).2 = true := by
        rcases hbad with h | h
        · exact absurd hv h
        · exact h
      simp only [hex, if_true]
      exact ⟨_, rfl⟩
  · intro hv hnew hmap
    cases hm : w.Entries with
    | none => exact absurd hm hmap
    | some m =>
      have hl : mapLookup m e.Address = none := by
        unfold SimpleWallet.GetEntry at hnew
        rw [hm] at hnew
        cases hl : mapLookup m e.Address with
        | none => rfl
        | some we => simp [hl] at hnew
      have hany := (mapLookup_none_iff m e.Address).mp hl
      have hassign : mapAssign m e.Address e = m ++ [(e.Address, e)] := by
        unfold mapAssign
        rw [hany]
        simp
      obtain ⟨hself, hother⟩ := mapLookup_append_new m e.Address e hl
      refine ⟨{ w with Entries := some (m ++ [(e.Address, e)]) }, ?_, ?_, ?_, ?_, rfl, rfl, rfl⟩
      · unfold SimpleWallet.AddEntry
        simp only [hv, hnew, hm, hassign]
        rfl
      · simp only [SimpleWallet.GetEntry, hself]
      · simp [SimpleWallet.NumEntries, hm]
      · intro a ha
        simp only [SimpleWallet.GetEntry, hm, hother a ha]
  · intro hv hm
    have hnew : (w.GetEntry e.Address).2 = false := by
      simp [SimpleWallet.GetEntry, hm]
    unfold SimpleWallet.AddEntry
    simp only [hv, hnew, hm]
    rfl

/-- Witness of C24 as amended: a valid entry with a new address is added to the one-entry
wallet. -/
theorem AddEntry_behaviour_witness :
    demoEntryVerify { Address := [2], Public := [20], Secret := [21] } = none ∧
      (demoWallet.GetEntry [2]).2 = false ∧ demoWallet.Entries ≠ none ∧
      ∃ added, demoWallet.AddEntry demoEntryVerify (fun _ => "a")
          { Address := [2], Public := [20], Secret := [21] } = some (added, none) ∧
        added.GetEntry [2] = ({ Address := [2], Public := [20], Secret := [21] }, true) ∧
        added.NumEntries = demoWallet.NumEntries + 1 ∧
        (∀ a, a ≠ [2] → added.GetEntry a = demoWallet.GetEntry a) ∧
        added.ID = demoWallet.ID ∧ added.Name = demoWallet.Name ∧
        added.Filename = demoWallet.Filename :=
  ⟨by decide, by decide, by decide,
    (AddEntry_behaviour demoEntryVerify (fun _ => "a") demoWallet
      { Address := [2], Public := [20], Secret := [21] }).2.1 (by decide) (by decide)
      (by decide)⟩

/-- C24 as stated fails: on a wallet whose map of entries is nil, a valid entry whose address
is not in the wallet is not added: `AddEntry` panics instead of returning nil. -/
theorem AddEntry_nil_map :
    demoEntryVerify { Address := [2], Public := [20], Secret := [21] } = none ∧
      (nilWallet.GetEntry [2]).2 = false ∧
      nilWallet.AddEntry demoEntryVerify (fun _ => "a")
        { Address := [2], Public := [20], Secret := [21] } = none := by
  refine ⟨by decide, by decide, by decide⟩

/-! ## Claims on the alignment of the three slices -/

theorem AlignedSlices_ofEntries (env : Env) (feeCalc : FeeCalculator) (es : List Entry)
    (h : ∀ e ∈ es, Aligned env feeCalc e) : AlignedSlices env feeCalc (ofEntries es) := by
  unfold AlignedSlices ofEntries
  simp only [List.map_map]
  exact ⟨List.map_congr_left (fun e he => (h e he).1),
    List.map_congr_left (fun e he => (h e he).2)⟩

theorem AlignedSlices_Swap (env : Env) (feeCalc : FeeCalculator) (s swapped : SortableTransactions)
    (i j : Nat) (h : AlignedSlices env feeCalc s) (hswap : s.Swap i j = some swapped) :
    AlignedSlices env feeCalc swapped := by
  obtain ⟨hF, hH⟩ := h
  unfold SortableTransactions.Swap at hswap
  rw [hF, hH, swapAt_map, swapAt_map] at hswap
  cases ht : swapAt s.Txns i j with
  | none => simp [ht] at hswap
  | some txns =>
    simp only [ht, Option.map_some', Option.some.injEq] at hswap
    rw [← hswap]
    exact ⟨rfl, rfl⟩

theorem AlignedSlices_applySwaps (env : Env) (feeCalc : FeeCalculator)
    (swaps : List (Nat × Nat)) :
    ∀ s swapped : SortableTransactions, AlignedSlices env feeCalc s →
      applySwaps s swaps = some swapped → AlignedSlices env feeCalc swapped := by
  induction swaps with
  | nil =>
    intro s swapped h hrun
    simp only [applySwaps, Option.some.injEq] at hrun
    rw [← hrun]; exact h
  | cons ij rest ih =>
    intro s swapped h hrun
    obtain ⟨i, j⟩ := ij
    unfold applySwaps at hrun
    cases hs : s.Swap i j with
    | none => simp [hs] at hrun
    | some mid =>
      simp only [hs] at hrun
      exact ih mid swapped (AlignedSlices_Swap env feeCalc s mid i j h hs) hrun

/-- C25: the three slices are aligned after `newSortableTransactions`, stay aligned under any
sequence of `Swap` calls, and are aligned after `Sort`; aligned slices have the same length
and at every position the hash is the identity hash, and the fee the fee density, of the
transaction at that position.  The encoded size of every transaction is taken to be
positive. -/
theorem alignment_invariant (env : Env) (txns : Transactions) (feeCalc : FeeCalculator)
    (hsize : ∀ t ∈ txns, 0 < t.Size env) :
    (∃ s, newSortableTransactions env txns feeCalc = some s ∧ AlignedSlices env feeCalc s) ∧
      (∀ (s swapped : SortableTransactions) (swaps : List (Nat × Nat)),
        AlignedSlices env feeCalc s → applySwaps s swaps = some swapped →
        AlignedSlices env feeCalc swapped) ∧
      (∃ sorted, sortedTransactions env txns feeCalc = some sorted ∧
        AlignedSlices env feeCalc sorted) ∧
      (∀ s : SortableTransactions, AlignedSlices env feeCalc s →
        s.Txns.length = s.Fees.length ∧ s.Txns.length = s.Hashes.length ∧
        ∀ (i : Nat) (t : Transaction), s.Txns[i]? = some t →
          s.Hashes[i]? = some (t.Hash env) ∧ s.Fees[i]? = some (feeDensity env feeCalc t)) := by
  refine ⟨?_, ?_, ?_, ?_⟩
  · exact ⟨_, newSortableTransactions_entries env txns feeCalc hsize,
      AlignedSlices_ofEntries env feeCalc _ (entriesOf_aligned env feeCalc txns)⟩
  · intro s swapped swaps h hrun
    exact AlignedSlices_applySwaps env feeCalc swaps s swapped h hrun
  · obtain ⟨es, hrun, hperm, _⟩ := sortedTransactions_entries env txns feeCalc hsize
    exact ⟨_, hrun, AlignedSlices_ofEntries env feeCalc es
      (fun e he => entriesOf_aligned env feeCalc txns e (hperm.mem_iff.mp he))⟩
  · intro s h
    obtain ⟨hF, hH⟩ := h
    refine ⟨by rw [hF, List.length_map], by rw [hH, List.length_map], ?_⟩
    intro i t hit
    rw [hF, hH, List.getElem?_map, List.getElem?_map, hit]
    exact ⟨rfl, rfl⟩

/-- Witness of C25: the four transactions of the demonstration, and two swaps on three
aligned positions. -/
theorem alignment_invariant_witness :
    (∀ t ∈ demoTxns, 0 < t.Size demoEnv) ∧
      (∃ s, newSortableTransactions demoEnv demoTxns demoFee = some s ∧
        AlignedSlices demoEnv demoFee s) ∧
      (∃ sorted, sortedTransactions demoEnv demoTxns demoFee = some sorted ∧
        AlignedSlices demoEnv demoFee sorted) ∧
      applySwaps demoSortable [(0, 2), (1, 0)]
        = some { Txns := [demoPay 30 2, demoPay 30 4, demoPay 10 1]
                 Fees := [3840, 3840, 1280], Hashes := [[110], [116], [87]] } :=
  have h := alignment_invariant demoEnv demoTxns demoFee (by decide)
  ⟨by decide, h.1, h.2.2.1, by decide⟩

end Skycoin
